import Mathlib

/-!
Verification of the prime sieve benchmark `PrimeCPP_PAR.cpp`.

The C++ class `prime_sieve` keeps a `vector<bool> Bits` of length `n`
(index `i < n` means "i not yet proven composite"), and `main` wraps it
in an argument parser and a timed benchmark loop.

Embedding choices:
* `Bits` is modelled as a total function `Nat → Bool` together with the
  explicit `size` of the vector (out-of-range reads are unspecified in the
  source; the model keeps them at their construction value).
* Every C++ loop becomes a fuel-based structurally recursive function; the
  fuel supplied by the wrappers is always at least the number of iterations
  the C++ loop performs, which the lemmas below establish.
* `uint64_t q = (int) sqrt(Bits.size())` is modelled as `Nat.sqrt`, the
  exact integer square root (the spec treats the exact floating-point
  boundary policy as an implementation choice).
* machine integers are modelled as `Nat`/`Int` with explicit `% 2^w`
  conversions where a narrowing happens.
-/

/-- State of the C++ class `prime_sieve`: the length of `vector<bool> Bits`
and the bits themselves. -/
structure prime_sieve where
  size : Nat
  Bits : Nat → Bool

/-- Constructor `prime_sieve(uint64_t n) : Bits(n, true)`. -/
def prime_sieve.init (n : Nat) : prime_sieve :=
  ⟨n, fun _ => true⟩

/-- The single-bit write `Bits[num] = false`. -/
def prime_sieve.setFalse (s : prime_sieve) (num : Nat) : prime_sieve :=
  ⟨s.size, fun i => if i = num then false else s.Bits i⟩

/-- Inner scan of `runSieve`:
`for (num = factor; num < Bits.size(); num += 2) if (Bits[num]) { factor = num; break; }`.
Returns the updated value of `factor` (unchanged when no set bit is found). -/
def scanLoop : Nat → prime_sieve → Nat → Nat → Nat
  | 0, _, _, fac => fac
  | fuel + 1, s, num, fac =>
    if num < s.size then
      if s.Bits num then num else scanLoop fuel s (num + 2) fac
    else fac

/-- Inner elimination loop of `runSieve`:
`for (num = factor * factor; num < Bits.size(); num += factor * 2) Bits[num] = false;`. -/
def clearLoop : Nat → prime_sieve → Nat → Nat → prime_sieve
  | 0, s, _, _ => s
  | fuel + 1, s, num, step =>
    if num < s.size then clearLoop fuel (s.setFalse num) (num + step) step else s

/-- Outer loop of `runSieve`: `while (factor <= q) { scan; clear; factor += 2; }`. -/
def sieveLoop : Nat → prime_sieve → Nat → Nat → prime_sieve
  | 0, s, _, _ => s
  | fuel + 1, s, factor, q =>
    if factor ≤ q then
      let f := scanLoop s.size s factor factor
      let s2 := clearLoop s.size s (f * f) (f * 2)
      sieveLoop fuel s2 (f + 2) q
    else s

/-- Kernel-computable exact integer square root (largest `r` with `r * r ≤ n`),
used to model `(int) sqrt(Bits.size())`; proven equal to `Nat.sqrt` below. -/
def isqrtAux (n : Nat) : Nat → Nat → Nat
  | 0, r => r
  | fuel + 1, r => if (r + 1) * (r + 1) ≤ n then isqrtAux n fuel (r + 1) else r

/-- See `isqrtAux`. -/
def isqrt (n : Nat) : Nat := isqrtAux n n 0

/-- `prime_sieve::runSieve`: `factor = 3`, `q = (int) sqrt(Bits.size())`
(the exact integer square root; the spec treats the exact floating-point
boundary policy as an implementation choice), then the elimination loop. -/
def prime_sieve.runSieve (s : prime_sieve) : prime_sieve :=
  sieveLoop s.size s 3 (isqrt s.size)

/-- Counting loop of `countPrimes`:
`for (int i = 3; i < Bits.size(); i += 2) if (Bits[i]) count++;`. -/
def countLoop : Nat → prime_sieve → Nat → Nat → Nat
  | 0, _, _, count => count
  | fuel + 1, s, i, count =>
    if i < s.size then
      countLoop fuel s (i + 2) (if s.Bits i then count + 1 else count)
    else count

/-- `prime_sieve::countPrimes`: `size_t count = (Bits.size() >= 2);` then the
counting loop over odd indices from 3. -/
def prime_sieve.countPrimes (s : prime_sieve) : Nat :=
  countLoop s.size s 3 (if 2 ≤ s.size then 1 else 0)

/-- `prime_sieve::isPrime`: `if (n & 1) return Bits[n]; else return false;`. -/
def prime_sieve.isPrime (s : prime_sieve) (n : Nat) : Bool :=
  if n &&& 1 = 1 then s.Bits n else false

/-- The static `resultsDictionary` of `validateResults`. -/
def resultsDictionary : List (Nat × Nat) :=
  [(10, 4), (100, 25), (1000, 168), (10000, 1229), (100000, 9592),
   (1000000, 78498), (10000000, 664579), (100000000, 5761455),
   (1000000000, 50847534), (10000000000, 455052511)]

/-- `prime_sieve::validateResults`: returns `false` when `Bits.size()` is not a
key of the dictionary, otherwise compares the entry with `countPrimes()`. -/
def prime_sieve.validateResults (s : prime_sieve) : Bool :=
  match resultsDictionary.lookup s.size with
  | none => false
  | some v => v == s.countPrimes

/-! Specification-side descriptions (not translations of code; used to state
properties about the embedding above). -/

/-- An odd number above 1 that is not prime (exactly the indices the sieve is
meant to eliminate). -/
def OddComposite (i : Nat) : Prop := i % 2 = 1 ∧ 1 < i ∧ ¬ Nat.Prime i

/-- The set of indices a finished elimination round with factors below `f` has
cleared: odd multiples `i` of some prime `p ∈ [3, f)` with `p * p ≤ i`. -/
def ClearedBy (f i : Nat) : Prop :=
  ∃ p, Nat.Prime p ∧ 3 ≤ p ∧ p < f ∧ p ∣ i ∧ p * p ≤ i ∧ i % 2 = 1

/-- Number of odd indices `≥ 3` whose flag is still true. -/
def oddTrueCount (s : prime_sieve) : Nat :=
  ((Finset.range s.size).filter fun j => 3 ≤ j ∧ j % 2 = 1 ∧ s.Bits j = true).card

/-- Number of odd non-primes in `[max 3 a, b)` (the composites the sieve clears,
restricted to a segment). -/
def CompC (a b : Nat) : Nat :=
  ((Finset.range b).filter fun x => a ≤ x ∧ 3 ≤ x ∧ x % 2 = 1 ∧ ¬ Nat.Prime x).card

/-- Number of odd primes in `[3, n)`. -/
def oddPrimeCount (n : Nat) : Nat :=
  ((Finset.range n).filter fun x => 3 ≤ x ∧ x % 2 = 1 ∧ Nat.Prime x).card

/-! The benchmark harness (`main`). Wall-clock time cannot be represented in a
pure embedding; the number of iterations that the timed `while` loop performs
before the clock runs out is abstracted as an external parameter `waves`.  All
other arithmetic follows the source. -/

/-- Result of `atoi`/`atoll` on the digit part of a string. -/
def digitsVal : List Char → Int → Int
  | [], acc => acc
  | c :: cs, acc =>
    if c.isDigit then digitsVal cs (acc * 10 + (c.toNat - 48 : Nat)) else acc

/-- C `atoi`: optional whitespace, optional sign, leading digits (0 when none).
Overflow is not modelled; all inputs used in the theorems are small. -/
def atoi (str : String) : Int :=
  match str.data.dropWhile Char.isWhitespace with
  | '-' :: cs => - digitsVal cs 0
  | '+' :: cs => digitsVal cs 0
  | cs => digitsVal cs 0

/-- Conversion of a C `long long` value to `uint64_t`. -/
def intToUInt64 (x : Int) : Nat := (x % (2 : Int) ^ 64).toNat

/-- Conversion of a C `int` value to `unsigned int`. -/
def intToUInt32 (x : Int) : Nat := (x % (2 : Int) ^ 32).toNat

/-- The mutable locals of `main` that the argument loop updates. -/
structure ArgState where
  limitReq : Nat
  threadsReq : Int
  secondsReq : Int
  printPrimes : Bool
  oneshot : Bool

/-- Initial values: `ullLimitRequested = 0`, `cThreadsRequested = 0`,
`cSecondsRequested = 0`, `bPrintPrimes = false`, `bOneshot = false`. -/
def argState0 : ArgState := ⟨0, 0, 0, false, false⟩

/-- The argument loop of `main`.  `none` models the early `return 0` paths
(`-h`/`--help`, and the `-s`/`--seconds` branch, which returns unconditionally
in the source).  `-t`, `-s`, `-l` and `-1` advance the iterator an extra step;
when that lands on `args.end()` the source's subsequent `++i` walks past the
end (undefined behaviour), modelled here as ending the loop. -/
def parseArgs : List String → ArgState → Option ArgState
  | [], st => some st
  | a :: rest, st =>
    if a = "-h" ∨ a = "--help" then none
    else if a = "-t" ∨ a = "--threads" then
      match rest with
      | [] => some { st with threadsReq := 0 }
      | v :: rest' => parseArgs rest' { st with threadsReq := min 1 (atoi v) }
    else if a = "-s" ∨ a = "--seconds" then none
    else if a = "-l" ∨ a = "--limit" then
      match rest with
      | [] => some { st with limitReq := 0 }
      | v :: rest' => parseArgs rest' { st with limitReq := intToUInt64 (min 1 (atoi v)) }
    else if a = "-1" ∨ a = "--oneshot" then
      match rest with
      | [] => some { st with oneshot := true, threadsReq := 1 }
      | _ :: rest' => parseArgs rest' { st with oneshot := true, threadsReq := 1 }
    else if a = "-p" ∨ a = "--print" then parseArgs rest { st with printPrimes := true }
    else parseArgs rest st

/-- Observable outcome of one `main` invocation. -/
inductive MainOutcome
  | earlyExit
  | refused
  | ran (loopPasses : Nat) (sieveRuns : Nat) (threadsUsed : Nat) (limitUsed : Nat)
deriving DecidableEq

/-- The harness after argument parsing, lines 205-264 of the source:
the oneshot/seconds/threads conflict check, then either the timed wave loop
(`waves` models how many iterations the wall clock admits; each wave runs
`cThreads` sieves and credits `cThreads` passes) or, with `bOneshot`, a single
credited pass and no loop; finally the one `checkSieve` run.  `sieveRuns`
counts every sieve constructed and swept to completion. -/
def runPhase (st : ArgState) (hardware : Nat) (waves : Nat) : MainOutcome :=
  if st.oneshot ∧ (st.secondsReq > 0 ∨ st.threadsReq > 1) then .refused
  else
    let cThreads : Nat := if st.threadsReq = 0 then hardware else intToUInt32 st.threadsReq
    let llUpperLimit : Nat := if st.limitReq = 0 then 10000000 else st.limitReq
    let cPasses : Nat := if st.oneshot then 1 else waves * cThreads
    .ran cPasses ((if st.oneshot then 0 else waves * cThreads) + 1) cThreads llUpperLimit

/-- The whole of `main` on a given argument vector. -/
def mainModel (args : List String) (hardware : Nat) (waves : Nat) : MainOutcome :=
  match parseArgs args argState0 with
  | none => .earlyExit
  | some st => runPhase st hardware waves

/-! Fast, kernel-computable prime counting used to discharge the numeric
claims about `countPrimes` at the tested limits.  The sieve is recomputed on
`Nat` bit masks (one bit per index, in coordinates relative to a segment
`[a, b)`), and the set bits are counted by a verified parallel bit-count.
These definitions are proof infrastructure: the lemmas below show they count
exactly the odd non-primes of a segment, which ties them to `countPrimes`. -/

/-- `repUnit u d fuel m` is `Σ_{k < m} u * 2^(d*k)`, built by binary doubling
so that its kernel evaluation takes `O(log m)` big-integer operations. -/
def repUnit (u d : Nat) : Nat → Nat → Nat
  | 0, _ => 0
  | fuel + 1, m =>
    if m = 0 then 0
    else
      let h := repUnit u d fuel (m / 2)
      let full := h ||| (h <<< (d * (m / 2)))
      if m % 2 = 1 then full ||| (u <<< (d * (m - 1))) else full

/-- First element of the progression `start, start + step, ...` that is `≥ a`. -/
def progFrom (start step a : Nat) : Nat :=
  if a ≤ start then start else start + step * ((a - start + step - 1) / step)

/-- Bit mask (relative to base `a`) of the members of the arithmetic
progression `start, start + step, ...` that lie in `[a, b)`: bit `j` is set
iff `a + j` is such a member. -/
def segProgMask (start step a b : Nat) : Nat :=
  let t0 := progFrom start step a
  (repUnit 1 step 64 (if t0 < b then (b - 1 - t0) / step + 1 else 0)) <<< (t0 - a)

/-- Trial division over the odd candidates `d, d+2, ...`: `true` iff one of
the first `fuel` candidates `e` satisfies `e * e ≤ n` and `e ∣ n`. -/
def hasOddDivAux (n : Nat) : Nat → Nat → Bool
  | _, 0 => false
  | d, fuel + 1 =>
    if d * d ≤ n then
      if n % d = 0 then true else hasOddDivAux n (d + 2) fuel
    else false

/-- Executable primality test used to filter the sieve factors: an odd
`n ≥ 3` is prime iff it has no odd divisor `d ≥ 3` with `d * d ≤ n`. -/
def isOddPrimeB (n : Nat) : Bool :=
  decide (n % 2 = 1) && decide (3 ≤ n) && ! hasOddDivAux n 3 n

/-- Bitwise or of `segProgMask (g*g) (2*g) a b` over the primes among `cnt`
consecutive odd factors `g = f, f+2, ...`, as a balanced tree (recursion
depth `O(log cnt)`), pruned at `g * g ≥ b` exactly as an ascending factor
loop would stop.  Restricting to prime factors does not change the union of
the progressions (a composite factor's progression is contained in its least
prime factor's progression) but keeps the kernel evaluation small. -/
def orTree (a b : Nat) : Nat → Nat → Nat → Nat
  | 0, f, cnt =>
    if f * f < b then
      if cnt = 1 then
        if isOddPrimeB f then segProgMask (f * f) (2 * f) a b else 0
      else 0
    else 0
  | fuel + 1, f, cnt =>
    if f * f < b then
      if cnt = 0 then 0
      else if cnt = 1 then
        if isOddPrimeB f then segProgMask (f * f) (2 * f) a b else 0
      else
        orTree a b fuel f (cnt - cnt / 2) |||
          orTree a b fuel (f + 2 * (cnt - cnt / 2)) (cnt / 2)
    else 0

/-- Mask (relative to `a`) of every index in `[a, b)` that is an odd multiple
`g * (g + 2k)` of some odd prime `g ≥ 3` with `g * g < b` — that is, of every
odd non-prime `≥ 9` in the segment. -/
def segSieveOr (a b : Nat) : Nat := orTree a b 64 3 b

/-- Mask (relative to `a`) of the odd indices `≥ 3` in `[a, b)`. -/
def segOddMask (a b : Nat) : Nat := segProgMask 3 2 a b

/-- Parallel population count: after `s` rounds, adjacent fields of width
`2^k` hold the bit counts of their spans; a number `< 2^(2^s)` is reduced to a
single field holding its total bit count. -/
def swarLoop : Nat → Nat → Nat → Nat
  | 0, _, x => x
  | st + 1, w, x =>
    let m := repUnit ((1 <<< w) - 1) (2 * w) 64 (1 <<< st)
    swarLoop st (2 * w) ((x &&& m) + ((x >>> w) &&& m))

/-- Number of odd non-primes in `[max 3 a, b)`, computed on bit masks;
`s` must satisfy `b - a ≤ 2^s` (and `s < 64`, `b < 2^64`). -/
def segCount (s a b : Nat) : Nat :=
  swarLoop s 1 (segSieveOr a b &&& segOddMask a b)

/-- Sum of the base-`2^w` digits of `x` (the first `c` of them). -/
def chunkSumB (w c x : Nat) : Nat :=
  ∑ j ∈ Finset.range c, x / 2 ^ (w * j) % 2 ^ w

/-- Number of set bits of `x` among positions `< W`. -/
def countBits (W x : Nat) : Nat :=
  ((Finset.range W).filter fun i => x.testBit i = true).card

/-! Basic structural lemmas about the embedded loops. -/

theorem setFalse_size (s : prime_sieve) (num : Nat) : (s.setFalse num).size = s.size := rfl

theorem setFalse_Bits (s : prime_sieve) (num i : Nat) :
    (s.setFalse num).Bits i = if i = num then false else s.Bits i := rfl

theorem clearLoop_size (fuel : Nat) (s : prime_sieve) (num step : Nat) :
    (clearLoop fuel s num step).size = s.size := by
  induction fuel generalizing s num with
  | zero => rfl
  | succ fuel ih =>
    simp only [clearLoop]
    split
    · rw [ih]; rfl
    · rfl

theorem clearLoop_Bits_false (fuel : Nat) (s : prime_sieve) (num step i : Nat)
    (hfuel : s.size ≤ num + fuel * step) :
    ((clearLoop fuel s num step).Bits i = false) ↔
      ((num ≤ i ∧ i < s.size ∧ ∃ k, i = num + step * k) ∨ s.Bits i = false) := by
  induction fuel generalizing s num with
  | zero =>
    simp only [clearLoop]
    constructor
    · exact fun h => Or.inr h
    · rintro (⟨h1, h2, -⟩ | h)
      · exfalso; omega
      · exact h
  | succ fuel ih =>
    simp only [clearLoop]
    split
    · rename_i hlt
      rw [ih (s.setFalse num) (num + step)
        (by rw [setFalse_size]; rw [Nat.succ_mul] at hfuel; omega)]
      simp only [setFalse_size, setFalse_Bits]
      constructor
      · rintro (⟨h1, h2, k, hk⟩ | h)
        · exact Or.inl ⟨by omega, h2, k + 1, by rw [Nat.mul_succ]; omega⟩
        · by_cases hi : i = num
          · subst hi
            exact Or.inl ⟨Nat.le_refl _, hlt, 0, by simp⟩
          · rw [if_neg hi] at h
            exact Or.inr h
      · rintro (⟨h1, h2, k, hk⟩ | h)
        · rcases k with - | k
          · have hin : i = num := by simpa using hk
            subst hin
            exact Or.inr (by rw [if_pos rfl])
          · rw [Nat.mul_succ] at hk
            exact Or.inl ⟨by omega, h2, k, by omega⟩
        · by_cases hi : i = num
          · exact Or.inr (by rw [if_pos hi])
          · exact Or.inr (by rw [if_neg hi]; exact h)
    · rename_i hge
      constructor
      · exact fun h => Or.inr h
      · rintro (⟨h1, h2, -⟩ | h)
        · exfalso; omega
        · exact h

theorem scanLoop_spec (fuel : Nat) (s : prime_sieve) (num fac : Nat)
    (hfuel : s.size ≤ num + 2 * fuel) :
    (num ≤ scanLoop fuel s num fac ∧ scanLoop fuel s num fac < s.size ∧
      s.Bits (scanLoop fuel s num fac) = true ∧
      scanLoop fuel s num fac % 2 = num % 2 ∧
      ∀ m, num ≤ m → m < scanLoop fuel s num fac → m % 2 = num % 2 →
        s.Bits m = false) ∨
    (scanLoop fuel s num fac = fac ∧
      ∀ m, num ≤ m → m < s.size → m % 2 = num % 2 → s.Bits m = false) := by
  induction fuel generalizing num with
  | zero =>
    right
    refine ⟨rfl, fun m h1 h2 _ => absurd h2 ?_⟩
    omega
  | succ fuel ih =>
    simp only [scanLoop]
    by_cases h1 : num < s.size
    · rw [if_pos h1]
      by_cases h2 : s.Bits num = true
      · rw [if_pos h2]
        exact Or.inl ⟨Nat.le_refl _, h1, h2, rfl,
          fun m hm1 hm2 _ => absurd hm2 (by omega)⟩
      · rw [if_neg h2]
        have h2' : s.Bits num = false := by
          cases h : s.Bits num
          · rfl
          · exact absurd h h2
        rcases ih (num + 2) (by omega) with ⟨ha, hb, hc, hd, he⟩ | ⟨ha, hb⟩
        · left
          refine ⟨by omega, hb, hc, by omega, fun m hm1 hm2 hm3 => ?_⟩
          have : m = num ∨ num + 2 ≤ m := by omega
          rcases this with rfl | hge
          · exact h2'
          · exact he m hge hm2 (by omega)
        · right
          refine ⟨ha, fun m hm1 hm2 hm3 => ?_⟩
          have : m = num ∨ num + 2 ≤ m := by omega
          rcases this with rfl | hge
          · exact h2'
          · exact hb m hge hm2 (by omega)
    · rw [if_neg h1]
      exact Or.inr ⟨rfl, fun m hm1 hm2 _ => absurd hm2 (by omega)⟩

theorem sieveLoop_size (fuel : Nat) (s : prime_sieve) (factor q : Nat) :
    (sieveLoop fuel s factor q).size = s.size := by
  induction fuel generalizing s factor with
  | zero => rfl
  | succ fuel ih =>
    simp only [sieveLoop]
    split
    · rw [ih, clearLoop_size]
    · rfl

theorem runSieve_size (s : prime_sieve) : s.runSieve.size = s.size := by
  unfold prime_sieve.runSieve
  exact sieveLoop_size _ _ _ _

theorem init_size (n : Nat) : (prime_sieve.init n).size = n := rfl

theorem init_Bits (n i : Nat) : (prime_sieve.init n).Bits i = true := rfl

/-! Number-theoretic helpers relating the cleared indices to odd composites. -/

theorem prime_ge3_odd {p : Nat} (hp : Nat.Prime p) (h3 : 3 ≤ p) : p % 2 = 1 := by
  by_contra h
  have hdvd : 2 ∣ p := ⟨p / 2, by omega⟩
  rcases Nat.Prime.eq_one_or_self_of_dvd hp 2 hdvd with h' | h' <;> omega

theorem ClearedBy_mono {f f' i : Nat} (h : f ≤ f') (hc : ClearedBy f i) : ClearedBy f' i := by
  obtain ⟨p, hp, h3, hlt, hdvd, hsq, hodd⟩ := hc
  exact ⟨p, hp, h3, by omega, hdvd, hsq, hodd⟩

theorem ClearedBy_OddComposite {f i : Nat} (hc : ClearedBy f i) : OddComposite i := by
  obtain ⟨p, hp, h3, hlt, hdvd, hsq, hodd⟩ := hc
  have h9 : 9 ≤ i := by
    have : 3 * 3 ≤ p * p := Nat.mul_le_mul h3 h3
    omega
  refine ⟨hodd, by omega, fun hpr => ?_⟩
  rcases Nat.Prime.eq_one_or_self_of_dvd hpr p hdvd with h | h
  · omega
  · subst h
    have h9i : p * 9 ≤ p * p := Nat.mul_le_mul_left p (by omega)
    omega

theorem not_ClearedBy_of_prime {f r : Nat} (hr : Nat.Prime r) : ¬ ClearedBy f r :=
  fun hc => (ClearedBy_OddComposite hc).2.2 hr

theorem minFac_facts {i : Nat} (h : OddComposite i) :
    Nat.Prime i.minFac ∧ 3 ≤ i.minFac ∧ i.minFac % 2 = 1 ∧ i.minFac ∣ i ∧
      i.minFac * i.minFac ≤ i ∧ i.minFac < i := by
  obtain ⟨hodd, h1, hnp⟩ := h
  have hne1 : i ≠ 1 := by omega
  have hp := Nat.minFac_prime hne1
  have hdvd := Nat.minFac_dvd i
  have h2 := hp.two_le
  have h3 : 3 ≤ i.minFac := by
    rcases Nat.lt_or_ge i.minFac 3 with hlt | hge
    · exfalso
      have : i.minFac = 2 := by omega
      obtain ⟨c, hc⟩ := hdvd
      rw [this] at hc
      omega
    · exact hge
  have hsq : i.minFac * i.minFac ≤ i := by
    have := Nat.minFac_sq_le_self (by omega : 0 < i) hnp
    rwa [Nat.pow_two] at this
  have hlt : i.minFac < i := by
    have hle : i.minFac ≤ i := Nat.le_of_dvd (by omega) hdvd
    rcases Nat.lt_or_ge i.minFac i with h | h
    · exact h
    · exfalso
      have heq : i.minFac = i := by omega
      rw [heq] at hsq h3
      have h3i : i * 3 ≤ i * i := Nat.mul_le_mul_left i (by omega)
      omega
  exact ⟨hp, h3, prime_ge3_odd hp h3, hdvd, hsq, hlt⟩

theorem OddComposite_ClearedBy {i F : Nat} (h : OddComposite i) (hF : i.minFac < F) :
    ClearedBy F i := by
  obtain ⟨hp, h3, hpodd, hdvd, hsq, hlt⟩ := minFac_facts h
  exact ⟨i.minFac, hp, h3, hF, hdvd, hsq, h.1⟩

/-- Every member of the elimination progression of an odd factor `g ≥ 3` is an
odd multiple `g * (g + 2k)`, hence an odd composite cleared by factors `< g+2`. -/
theorem progression_ClearedBy {g k i : Nat} (hg3 : 3 ≤ g) (hgodd : g % 2 = 1)
    (hk : i = g * g + g * 2 * k) : ClearedBy (g + 2) i := by
  have hmul : i = g * (g + 2 * k) := by rw [hk]; ring
  have hoddi : i % 2 = 1 := by
    have : Odd i := by
      rw [hmul]
      exact Nat.odd_mul.mpr ⟨Nat.odd_iff.mpr hgodd, Nat.odd_iff.mpr (by omega)⟩
    exact Nat.odd_iff.mp this
  have hgsq : g * g ≤ i := by omega
  have hgdvd : g ∣ i := ⟨g + 2 * k, hmul⟩
  by_cases hgp : Nat.Prime g
  · exact ⟨g, hgp, hg3, by omega, hgdvd, hgsq, hoddi⟩
  · have hgc : OddComposite g := ⟨hgodd, by omega, hgp⟩
    obtain ⟨hp, h3, hpodd, hdvd, hsq, hlt⟩ := minFac_facts hgc
    have hgle : g ≤ g * g := Nat.le_mul_of_pos_left g (by omega)
    exact ⟨g.minFac, hp, h3, by omega, hdvd.trans hgdvd, by omega, hoddi⟩

/-- Conversely, a `ClearedBy`-witness `p = g` puts `i` in the elimination
progression of `g`. -/
theorem elem_progression {g i : Nat} (hg3 : 3 ≤ g) (hgodd : g % 2 = 1)
    (hdvd : g ∣ i) (hsq : g * g ≤ i) (hoddi : i % 2 = 1) :
    ∃ k, i = g * g + g * 2 * k := by
  obtain ⟨m, hm⟩ := hdvd
  have hmodd : m % 2 = 1 := by
    have := Nat.odd_mul.mp (Nat.odd_iff.mpr (hm ▸ hoddi))
    exact Nat.odd_iff.mp this.2
  have hmg : g ≤ m := Nat.le_of_mul_le_mul_left (by rw [← hm]; exact hsq) (by omega)
  refine ⟨(m - g) / 2, ?_⟩
  have ht : 2 * ((m - g) / 2) = m - g := by omega
  calc i = g * m := hm
    _ = g * g + g * (m - g) := by rw [← Nat.mul_add]; congr 1; omega
    _ = g * g + g * (2 * ((m - g) / 2)) := by rw [ht]
    _ = g * g + g * 2 * ((m - g) / 2) := by ring

theorem isqrtAux_spec (n : Nat) : ∀ (fuel r : Nat), r * r ≤ n →
    n < (r + fuel + 1) * (r + fuel + 1) →
    (isqrtAux n fuel r) * (isqrtAux n fuel r) ≤ n ∧
      n < (isqrtAux n fuel r + 1) * (isqrtAux n fuel r + 1) := by
  intro fuel
  induction fuel with
  | zero =>
    intro r h1 h2
    simp only [isqrtAux]
    constructor
    · exact h1
    · have : r + 0 + 1 = r + 1 := by omega
      rw [this] at h2
      exact h2
  | succ fuel ih =>
    intro r h1 h2
    simp only [isqrtAux]
    by_cases hle : (r + 1) * (r + 1) ≤ n
    · rw [if_pos hle]
      refine ih (r + 1) hle ?_
      have : r + 1 + fuel + 1 = r + (fuel + 1) + 1 := by omega
      rw [this]
      exact h2
    · rw [if_neg hle]
      exact ⟨h1, by omega⟩

theorem isqrt_eq_sqrt (n : Nat) : isqrt n = Nat.sqrt n := by
  have hself : n < (0 + n + 1) * (0 + n + 1) := by
    have h1 : n + 1 ≤ (n + 1) * (n + 1) := Nat.le_mul_of_pos_left _ (by omega)
    have h2 : 0 + n + 1 = n + 1 := by omega
    rw [h2]
    omega
  obtain ⟨h1, h2⟩ := isqrtAux_spec n n 0 (by omega) hself
  have h3 : isqrtAux n n 0 ≤ Nat.sqrt n := Nat.le_sqrt.mpr h1
  have h4 : Nat.sqrt n < isqrtAux n n 0 + 1 := by
    rw [Nat.sqrt_lt']
    rw [Nat.pow_two]
    exact h2
  unfold isqrt
  omega

/-- One iteration of the outer sieve loop: scanning advances the factor to `g`
(odd, `≥ f`), and clearing `g`'s progression extends the invariant
"a flag is down exactly for the in-range indices `ClearedBy` the factors
processed so far" from `f` to `g + 2`. -/
theorem sieve_iter (N : Nat) (s : prime_sieve) (f : Nat)
    (hsize : s.size = N)
    (hinv : ∀ i, (s.Bits i = false) ↔ (i < N ∧ ClearedBy f i))
    (hf3 : 3 ≤ f) (hodd : f % 2 = 1) (hfN : f < N) :
    f ≤ scanLoop s.size s f f ∧ scanLoop s.size s f f % 2 = 1 ∧
      ∀ i, ((clearLoop s.size s (scanLoop s.size s f f * scanLoop s.size s f f)
          (scanLoop s.size s f f * 2)).Bits i = false) ↔
        (i < N ∧ ClearedBy (scanLoop s.size s f f + 2) i) := by
  have hbtrue : ∀ r, Nat.Prime r → s.Bits r = true := by
    intro r hr
    cases hb : s.Bits r
    · exact absurd ((hinv r).mp hb).2 (not_ClearedBy_of_prime hr)
    · rfl
  have hspec := scanLoop_spec s.size s f f (by omega : s.size ≤ f + 2 * s.size)
  set g := scanLoop s.size s f f with hgdef
  have hmain : f ≤ g ∧ g % 2 = 1 ∧ ∀ p, Nat.Prime p → f ≤ p → p < g + 2 → p = g := by
    rcases hspec with ⟨h1, h2, h3, h4, h5⟩ | ⟨h1, h2⟩
    · refine ⟨h1, by omega, fun p hp hfp hpg2 => ?_⟩
      have hpodd : p % 2 = 1 := prime_ge3_odd hp (by omega)
      rcases Nat.lt_or_ge p g with hlt | hge'
      · exfalso
        have hfalse := h5 p hfp hlt (by omega)
        rw [hbtrue p hp] at hfalse
        exact Bool.noConfusion hfalse
      · omega
    · refine ⟨by omega, by omega, fun p hp hfp hpg2 => ?_⟩
      have hpodd : p % 2 = 1 := prime_ge3_odd hp (by omega)
      have hpf : p = f := by omega
      subst hpf
      exfalso
      have hbf := h2 p (Nat.le_refl p) (by omega) rfl
      rw [hbtrue p hp] at hbf
      exact Bool.noConfusion hbf
  obtain ⟨hfg, hgodd, hkey⟩ := hmain
  have hg3 : 3 ≤ g := by omega
  refine ⟨hfg, hgodd, fun i => ?_⟩
  have hclfuel : s.size ≤ g * g + s.size * (g * 2) := by
    have : s.size * 1 ≤ s.size * (g * 2) := Nat.mul_le_mul_left _ (by omega)
    omega
  rw [clearLoop_Bits_false s.size s (g * g) (g * 2) i hclfuel, hinv i]
  constructor
  · rintro (⟨hle, hlt, k, hk⟩ | ⟨hiN, hcl⟩)
    · exact ⟨by omega, progression_ClearedBy hg3 hgodd hk⟩
    · exact ⟨hiN, ClearedBy_mono (by omega) hcl⟩
  · rintro ⟨hiN, p, hp, hp3, hpf2, hpd, hpsq, hoddi⟩
    by_cases hpf : p < f
    · exact Or.inr ⟨hiN, p, hp, hp3, hpf, hpd, hpsq, hoddi⟩
    · have hpg : p = g := hkey p hp (by omega) hpf2
      subst hpg
      obtain ⟨k, hk⟩ := elem_progression hp3 (prime_ge3_odd hp hp3) hpd hpsq hoddi
      exact Or.inl ⟨by omega, by omega, k, hk⟩

/-- Running the outer loop to completion turns the invariant for the starting
factor into the invariant for some factor `F` beyond `q`. -/
theorem sieveLoop_inv (N q : Nat) (hq : q = Nat.sqrt N) :
    ∀ (fuel : Nat) (s : prime_sieve) (f : Nat), s.size = N → 3 ≤ f → f % 2 = 1 →
      q + 2 ≤ f + 2 * fuel →
      (∀ i, (s.Bits i = false) ↔ (i < N ∧ ClearedBy f i)) →
      ∃ F, q < F ∧
        ∀ i, ((sieveLoop fuel s f q).Bits i = false) ↔ (i < N ∧ ClearedBy F i) := by
  intro fuel
  induction fuel with
  | zero =>
    intro s f hsize hf3 hodd hfuel hinv
    exact ⟨f, by omega, by simpa [sieveLoop] using hinv⟩
  | succ fuel ih =>
    intro s f hsize hf3 hodd hfuel hinv
    simp only [sieveLoop]
    by_cases hguard : f ≤ q
    · rw [if_pos hguard]
      have hfN : f < N := by
        have h9 : 9 ≤ N := by
          by_contra hcon
          have : Nat.sqrt N < 3 := Nat.sqrt_lt'.mpr (by omega)
          omega
        have := Nat.sqrt_lt_self (by omega : 1 < N)
        omega
      obtain ⟨hfg, hgodd, hchar⟩ := sieve_iter N s f hsize hinv hf3 hodd hfN
      have hsize2 : (clearLoop s.size s (scanLoop s.size s f f * scanLoop s.size s f f)
          (scanLoop s.size s f f * 2)).size = N := by
        rw [clearLoop_size, hsize]
      exact ih _ _ hsize2 (by omega) (by omega) (by omega) hchar
    · rw [if_neg hguard]
      exact ⟨f, by omega, hinv⟩

/-- Characterization of the whole sieve on a freshly constructed instance:
after `runSieve`, a flag is down exactly at the in-range odd non-primes
above 1. -/
theorem runSieve_init_char (N : Nat) :
    ∀ i, (((prime_sieve.init N).runSieve).Bits i = false) ↔ (i < N ∧ OddComposite i) := by
  have hinv0 : ∀ i, ((prime_sieve.init N).Bits i = false) ↔ (i < N ∧ ClearedBy 3 i) := by
    intro i
    constructor
    · intro h
      exact absurd h (by simp [init_Bits])
    · rintro ⟨-, p, -, h3, hlt, -⟩
      omega
  have hfuel : isqrt N + 2 ≤ 3 + 2 * N := by
    have h1 := Nat.sqrt_le_self N
    have h2 := isqrt_eq_sqrt N
    omega
  obtain ⟨F, hF, hchar⟩ := sieveLoop_inv N (isqrt N) (isqrt_eq_sqrt N) N
    (prime_sieve.init N) 3 (init_size N) (Nat.le_refl 3) rfl hfuel hinv0
  intro i
  unfold prime_sieve.runSieve
  have hgoal : (sieveLoop (prime_sieve.init N).size (prime_sieve.init N) 3
      (isqrt (prime_sieve.init N).size)).Bits i
      = (sieveLoop N (prime_sieve.init N) 3 (isqrt N)).Bits i := rfl
  rw [hgoal, hchar i]
  constructor
  · rintro ⟨hiN, hcl⟩
    exact ⟨hiN, ClearedBy_OddComposite hcl⟩
  · rintro ⟨hiN, hoc⟩
    refine ⟨hiN, OddComposite_ClearedBy hoc ?_⟩
    obtain ⟨-, -, -, -, hsq, -⟩ := minFac_facts hoc
    have hle : i.minFac ≤ Nat.sqrt N := Nat.le_sqrt.mpr (by omega)
    have h2 := isqrt_eq_sqrt N
    omega

theorem bool_eq_of_false_iff {a b : Bool} (h : (a = false) ↔ (b = false)) : a = b := by
  cases a <;> cases b <;> simp_all

/-- On a state whose flags already are exactly "down at in-range odd
non-primes", the outer loop never changes a flag: every index it clears is an
odd composite in range, whose flag is already down. -/
theorem sieveLoop_fix (N : Nat) :
    ∀ (fuel : Nat) (s : prime_sieve) (f q : Nat), s.size = N → 3 ≤ f → f % 2 = 1 →
      (∀ i, (s.Bits i = false) ↔ (i < N ∧ OddComposite i)) →
      ∀ i, (sieveLoop fuel s f q).Bits i = s.Bits i := by
  intro fuel
  induction fuel with
  | zero =>
    intro s f q hsize hf3 hodd hchar i
    rfl
  | succ fuel ih =>
    intro s f q hsize hf3 hodd hchar i
    simp only [sieveLoop]
    by_cases hguard : f ≤ q
    · rw [if_pos hguard]
      have hspec := scanLoop_spec s.size s f f (by omega : s.size ≤ f + 2 * s.size)
      set g := scanLoop s.size s f f with hgdef
      have hg : 3 ≤ g ∧ g % 2 = 1 := by
        rcases hspec with ⟨h1, -, -, h4, -⟩ | ⟨h1, -⟩
        · exact ⟨by omega, by omega⟩
        · exact ⟨by omega, by omega⟩
      have hclfuel : s.size ≤ g * g + s.size * (g * 2) := by
        have : s.size * 1 ≤ s.size * (g * 2) := Nat.mul_le_mul_left _ (by omega)
        omega
      have hpoint : ∀ j, (clearLoop s.size s (g * g) (g * 2)).Bits j = s.Bits j := by
        intro j
        apply bool_eq_of_false_iff
        rw [clearLoop_Bits_false s.size s (g * g) (g * 2) j hclfuel]
        constructor
        · rintro (⟨hle, hlt, k, hk⟩ | h)
          · rw [hchar j]
            exact ⟨by omega, ClearedBy_OddComposite (progression_ClearedBy hg.1 hg.2 hk)⟩
          · exact h
        · exact fun h => Or.inr h
      have hsize2 : (clearLoop s.size s (g * g) (g * 2)).size = N := by
        rw [clearLoop_size, hsize]
      have hchar2 : ∀ j, ((clearLoop s.size s (g * g) (g * 2)).Bits j = false) ↔
          (j < N ∧ OddComposite j) := by
        intro j
        rw [hpoint j]
        exact hchar j
      rw [ih (clearLoop s.size s (g * g) (g * 2)) (g + 2) q hsize2 (by omega) (by omega)
        hchar2 i]
      exact hpoint i
    · rw [if_neg hguard]

/-- The counting loop counts the set flags at indices `≥ i` of `i`'s parity. -/
theorem countLoop_card : ∀ (fuel : Nat) (s : prime_sieve) (i acc : Nat),
    s.size ≤ i + 2 * fuel →
    countLoop fuel s i acc =
      acc + ((Finset.range s.size).filter fun j => i ≤ j ∧ j % 2 = i % 2 ∧ s.Bits j = true).card := by
  intro fuel
  induction fuel with
  | zero =>
    intro s i acc hfuel
    have hempty : ((Finset.range s.size).filter
        fun j => i ≤ j ∧ j % 2 = i % 2 ∧ s.Bits j = true) = ∅ := by
      refine Finset.eq_empty_iff_forall_not_mem.mpr fun j hj => ?_
      rw [Finset.mem_filter, Finset.mem_range] at hj
      omega
    rw [hempty]
    rfl
  | succ fuel ih =>
    intro s i acc hfuel
    simp only [countLoop]
    by_cases hlt : i < s.size
    · rw [if_pos hlt, ih s (i + 2) _ (by omega)]
      have hsplit : ((Finset.range s.size).filter
            fun j => i ≤ j ∧ j % 2 = i % 2 ∧ s.Bits j = true).card =
          (if s.Bits i then 1 else 0) +
          ((Finset.range s.size).filter
            fun j => i + 2 ≤ j ∧ j % 2 = (i + 2) % 2 ∧ s.Bits j = true).card := by
        rw [Finset.card_filter, Finset.card_filter]
        have hpt : ∀ j ∈ Finset.range s.size,
            (if i ≤ j ∧ j % 2 = i % 2 ∧ s.Bits j = true then 1 else 0) =
            ((if j = i ∧ s.Bits i = true then 1 else 0) +
             (if i + 2 ≤ j ∧ j % 2 = (i + 2) % 2 ∧ s.Bits j = true then 1 else 0)) := by
          intro j hj
          by_cases hji : j = i
          · subst hji
            by_cases hb : s.Bits j = true
            · rw [if_pos ⟨Nat.le_refl j, rfl, hb⟩, if_pos ⟨rfl, hb⟩, if_neg (by omega)]
            · rw [if_neg (by tauto), if_neg (by tauto), if_neg (by tauto)]
          · rw [if_neg (by tauto : ¬(j = i ∧ s.Bits i = true))]
            by_cases hc : i ≤ j ∧ j % 2 = i % 2 ∧ s.Bits j = true
            · rw [if_pos hc, if_pos ⟨by omega, by omega, hc.2.2⟩]
            · rw [if_neg hc, if_neg (by rintro ⟨h1, h2, h3⟩; exact hc ⟨by omega, by omega, h3⟩)]
        rw [Finset.sum_congr rfl hpt, Finset.sum_add_distrib]
        congr 1
        have : ∀ j, (j = i ∧ s.Bits i = true) ↔ (j = i ∧ (s.Bits i = true ∧ True)) := by tauto
        by_cases hb : s.Bits i = true
        · have hpt2 : ∀ j ∈ Finset.range s.size,
              (if j = i ∧ s.Bits i = true then (1 : Nat) else 0) =
              (if j = i then 1 else 0) := by
            intro j hj
            by_cases hji : j = i
            · rw [if_pos ⟨hji, hb⟩, if_pos hji]
            · rw [if_neg (by tauto), if_neg hji]
          rw [Finset.sum_congr rfl hpt2, Finset.sum_ite_eq' (Finset.range s.size) i fun _ => 1,
            if_pos (Finset.mem_range.mpr hlt), if_pos hb]
        · have hpt2 : ∀ j ∈ Finset.range s.size,
              (if j = i ∧ s.Bits i = true then (1 : Nat) else 0) = 0 := by
            intro j hj
            rw [if_neg (by tauto)]
          rw [Finset.sum_congr rfl hpt2, Finset.sum_const, if_neg hb]
          simp
      rw [hsplit]
      by_cases hb : s.Bits i = true
      · rw [if_pos hb, if_pos hb]
        omega
      · rw [if_neg hb, if_neg hb]
        omega
    · rw [if_neg hlt]
      have hempty : ((Finset.range s.size).filter
          fun j => i ≤ j ∧ j % 2 = i % 2 ∧ s.Bits j = true) = ∅ := by
        refine Finset.eq_empty_iff_forall_not_mem.mpr fun j hj => ?_
        rw [Finset.mem_filter, Finset.mem_range] at hj
        omega
      rw [hempty]
      rfl

/-- `countPrimes` is the "2 is in range" credit plus the number of set flags at
odd indices `≥ 3`. -/
theorem countPrimes_eq (s : prime_sieve) :
    s.countPrimes = (if 2 ≤ s.size then 1 else 0) + oddTrueCount s := by
  unfold prime_sieve.countPrimes oddTrueCount
  rw [countLoop_card s.size s 3 _ (by omega)]

theorem bits_true_iff_not_oddComposite (N j : Nat) (hj : j < N) :
    (((prime_sieve.init N).runSieve).Bits j = true) ↔ ¬ OddComposite j := by
  rw [← Bool.not_eq_false, runSieve_init_char N j]
  constructor
  · exact fun h hoc => h ⟨hj, hoc⟩
  · exact fun h hoc => h hoc.2

theorem oddTrueCount_runSieve_init (N : Nat) :
    oddTrueCount ((prime_sieve.init N).runSieve) = oddPrimeCount N := by
  unfold oddTrueCount oddPrimeCount
  rw [runSieve_size, init_size]
  refine congrArg Finset.card (Finset.filter_congr fun j hj => ?_)
  rw [Finset.mem_range] at hj
  constructor
  · rintro ⟨h3, hob, hb⟩
    have := (bits_true_iff_not_oddComposite N j hj).mp hb
    refine ⟨h3, hob, ?_⟩
    by_contra hnp
    exact this ⟨hob, by omega, hnp⟩
  · rintro ⟨h3, hob, hp⟩
    exact ⟨h3, hob, (bits_true_iff_not_oddComposite N j hj).mpr fun hoc => hoc.2.2 hp⟩

theorem countPrimes_runSieve_init (N : Nat) (h2 : 2 ≤ N) :
    ((prime_sieve.init N).runSieve).countPrimes = 1 + oddPrimeCount N := by
  rw [countPrimes_eq, runSieve_size, init_size, if_pos h2, oddTrueCount_runSieve_init]

theorem card_odds (N : Nat) :
    ((Finset.range N).filter fun j => 3 ≤ j ∧ j % 2 = 1).card = (N - 2) / 2 := by
  induction N with
  | zero => rfl
  | succ N ih =>
    rw [Finset.range_succ, Finset.filter_insert]
    by_cases hN : 3 ≤ N ∧ N % 2 = 1
    · rw [if_pos hN, Finset.card_insert_of_not_mem
        (fun hmem => by simp [Finset.mem_filter, Finset.mem_range] at hmem), ih]
      omega
    · rw [if_neg hN, ih]
      omega

theorem oddPrimeCount_add_CompC (N : Nat) :
    oddPrimeCount N + CompC 0 N = (N - 2) / 2 := by
  unfold oddPrimeCount CompC
  rw [← card_odds N]
  have h1 : ((Finset.range N).filter fun x => 0 ≤ x ∧ 3 ≤ x ∧ x % 2 = 1 ∧ ¬ Nat.Prime x) =
      Finset.filter (fun x => ¬ Nat.Prime x)
        ((Finset.range N).filter fun x => 3 ≤ x ∧ x % 2 = 1) := by
    rw [Finset.filter_filter]
    exact Finset.filter_congr fun x hx => ⟨fun h => ⟨⟨h.2.1, h.2.2.1⟩, h.2.2.2⟩,
      fun h => ⟨Nat.zero_le x, h.1.1, h.1.2, h.2⟩⟩
  have h2 : ((Finset.range N).filter fun x => 3 ≤ x ∧ x % 2 = 1 ∧ Nat.Prime x) =
      Finset.filter Nat.Prime ((Finset.range N).filter fun x => 3 ≤ x ∧ x % 2 = 1) := by
    rw [Finset.filter_filter]
    exact Finset.filter_congr fun x hx => ⟨fun h => ⟨⟨h.1, h.2.1⟩, h.2.2⟩,
      fun h => ⟨h.1.1, h.1.2, h.2⟩⟩
  rw [h1, h2]
  exact Finset.filter_card_add_filter_neg_card_eq_card _

theorem CompC_split (a b c : Nat) (hab : a ≤ b) (hbc : b ≤ c) :
    CompC a c = CompC a b + CompC b c := by
  unfold CompC
  rw [Finset.card_filter, Finset.card_filter, Finset.card_filter]
  have hsplit : ∑ x ∈ Finset.range c,
        (if a ≤ x ∧ 3 ≤ x ∧ x % 2 = 1 ∧ ¬ Nat.Prime x then (1 : Nat) else 0) =
      ∑ x ∈ Finset.Ico 0 b,
        (if a ≤ x ∧ 3 ≤ x ∧ x % 2 = 1 ∧ ¬ Nat.Prime x then (1 : Nat) else 0) +
      ∑ x ∈ Finset.Ico b c,
        (if a ≤ x ∧ 3 ≤ x ∧ x % 2 = 1 ∧ ¬ Nat.Prime x then (1 : Nat) else 0) := by
    rw [Finset.sum_Ico_consecutive _ (Nat.zero_le b) hbc, Finset.range_eq_Ico]
  rw [hsplit, ← Finset.range_eq_Ico]
  congr 1
  have hpt : ∀ x ∈ Finset.Ico b c,
      (if a ≤ x ∧ 3 ≤ x ∧ x % 2 = 1 ∧ ¬ Nat.Prime x then (1 : Nat) else 0) =
      (if b ≤ x ∧ 3 ≤ x ∧ x % 2 = 1 ∧ ¬ Nat.Prime x then (1 : Nat) else 0) := by
    intro x hx
    rw [Finset.mem_Ico] at hx
    by_cases hp : 3 ≤ x ∧ x % 2 = 1 ∧ ¬ Nat.Prime x
    · rw [if_pos ⟨by omega, hp⟩, if_pos ⟨by omega, hp⟩]
    · rw [if_neg (by tauto), if_neg (by tauto)]
  rw [Finset.sum_congr rfl hpt]
  have hzero : ∑ x ∈ Finset.range b,
      (if b ≤ x ∧ 3 ≤ x ∧ x % 2 = 1 ∧ ¬ Nat.Prime x then (1 : Nat) else 0) = 0 := by
    refine Finset.sum_eq_zero fun x hx => ?_
    rw [Finset.mem_range] at hx
    rw [if_neg (by omega)]
  calc ∑ x ∈ Finset.Ico b c,
        (if b ≤ x ∧ 3 ≤ x ∧ x % 2 = 1 ∧ ¬ Nat.Prime x then (1 : Nat) else 0)
      = ∑ x ∈ Finset.Ico 0 b,
          (if b ≤ x ∧ 3 ≤ x ∧ x % 2 = 1 ∧ ¬ Nat.Prime x then (1 : Nat) else 0) +
        ∑ x ∈ Finset.Ico b c,
          (if b ≤ x ∧ 3 ≤ x ∧ x % 2 = 1 ∧ ¬ Nat.Prime x then (1 : Nat) else 0) := by
        rw [← Finset.range_eq_Ico, hzero, Nat.zero_add]
    _ = ∑ x ∈ Finset.range c,
          (if b ≤ x ∧ 3 ≤ x ∧ x % 2 = 1 ∧ ¬ Nat.Prime x then (1 : Nat) else 0) := by
        rw [Finset.sum_Ico_consecutive _ (Nat.zero_le b) hbc, Finset.range_eq_Ico]

theorem oddTrueCount_congr (s t : prime_sieve) (hsize : s.size = t.size)
    (hbits : ∀ i, s.Bits i = t.Bits i) : oddTrueCount s = oddTrueCount t := by
  unfold oddTrueCount
  rw [hsize]
  exact congrArg Finset.card (Finset.filter_congr fun j _ => by rw [hbits j])

theorem countPrimes_congr (s t : prime_sieve) (hsize : s.size = t.size)
    (hbits : ∀ i, s.Bits i = t.Bits i) : s.countPrimes = t.countPrimes := by
  rw [countPrimes_eq, countPrimes_eq, hsize, oddTrueCount_congr s t hsize hbits]

/-! Bit-level characterization of the mask builders. -/

theorem bool_eq_of_true_iff {a b : Bool} (h : (a = true) ↔ (b = true)) : a = b := by
  cases a <;> cases b <;> simp_all

theorem testBit_high_false {u d r : Nat} (hu : u < 2 ^ d) (hr : d ≤ r) :
    u.testBit r = false :=
  Nat.testBit_eq_false_of_lt (lt_of_lt_of_le hu (Nat.pow_le_pow_right (by omega) hr))

theorem testBit_one_iff (r : Nat) : ((1 : Nat).testBit r = true) ↔ r = 0 := by
  cases r with
  | zero => simp
  | succ r =>
    rw [Nat.testBit_to_div_mod]
    rw [Nat.div_eq_of_lt (by
      have : (2:Nat) ^ 1 ≤ 2 ^ (r + 1) := Nat.pow_le_pow_right (by omega) (by omega)
      omega)]
    simp

theorem repUnit_testBit : ∀ (fuel m : Nat), m < 2 ^ fuel → ∀ (u d : Nat), 0 < d → u < 2 ^ d →
    ∀ i, ((repUnit u d fuel m).testBit i = true) ↔ (i / d < m ∧ u.testBit (i % d) = true) := by
  intro fuel
  induction fuel with
  | zero =>
    intro m hm u d hd hu i
    have hm0 : m = 0 := by
      have : (2:Nat) ^ 0 = 1 := rfl
      omega
    subst hm0
    simp [repUnit]
  | succ fuel ih =>
    intro m hm u d hd hu i
    by_cases hm0 : m = 0
    · subst hm0
      simp [repUnit]
    · simp only [repUnit, if_neg hm0]
      have hm2 : m / 2 < 2 ^ fuel := by
        have hpow : (2:Nat) ^ (fuel + 1) = 2 * 2 ^ fuel := by ring
        omega
      have hih := ih (m / 2) hm2 u d hd hu
      have hfull : ∀ j, (((repUnit u d fuel (m / 2)) |||
            ((repUnit u d fuel (m / 2)) <<< (d * (m / 2)))).testBit j = true) ↔
          (j / d < 2 * (m / 2) ∧ u.testBit (j % d) = true) := by
        intro j
        rw [Nat.testBit_lor, Bool.or_eq_true, Nat.testBit_shiftLeft, Bool.and_eq_true,
          decide_eq_true_eq, hih j, hih (j - d * (m / 2))]
        constructor
        · rintro (⟨h1, h2⟩ | ⟨hD, h1, h2⟩)
          · exact ⟨by omega, h2⟩
          · have hD' : d * (m / 2) ≤ j := by omega
            rw [Nat.sub_mul_div j d (m / 2) hD'] at h1
            rw [Nat.sub_mul_mod hD'] at h2
            have hge : m / 2 ≤ j / d := (Nat.le_div_iff_mul_le hd).mpr
              (by rw [Nat.mul_comm]; omega)
            exact ⟨by omega, h2⟩
        · rintro ⟨h1, h2⟩
          by_cases hsmall : j / d < m / 2
          · exact Or.inl ⟨hsmall, h2⟩
          · have hD' : d * (m / 2) ≤ j := by
              have hc := (Nat.le_div_iff_mul_le hd).mp (by omega : m / 2 ≤ j / d)
              rw [Nat.mul_comm] at hc
              exact hc
            refine Or.inr ⟨by omega, ?_, ?_⟩
            · rw [Nat.sub_mul_div j d (m / 2) hD']
              omega
            · rw [Nat.sub_mul_mod hD']
              exact h2
      by_cases hpar : m % 2 = 1
      · rw [if_pos hpar]
        rw [Nat.testBit_lor, Bool.or_eq_true, hfull i, Nat.testBit_shiftLeft,
          Bool.and_eq_true, decide_eq_true_eq]
        constructor
        · rintro (⟨h1, h2⟩ | ⟨hD, h2⟩)
          · exact ⟨by omega, h2⟩
          · have hr : i - d * (m - 1) < d := by
              by_contra hge
              rw [testBit_high_false hu (by omega)] at h2
              exact Bool.noConfusion h2
            have hi_eq : i = d * (m - 1) + (i - d * (m - 1)) := by omega
            have hmod : i % d = i - d * (m - 1) := by
              conv_lhs => rw [hi_eq]
              rw [Nat.add_comm, Nat.add_mul_mod_self_left]
              exact Nat.mod_eq_of_lt hr
            have hdiv : i / d = m - 1 := by
              conv_lhs => rw [hi_eq]
              rw [Nat.add_comm, Nat.add_mul_div_left _ _ hd, Nat.div_eq_of_lt hr]
              omega
            exact ⟨by omega, by rw [hmod]; exact h2⟩
        · rintro ⟨h1, h2⟩
          by_cases hlow : i / d < 2 * (m / 2)
          · exact Or.inl ⟨hlow, h2⟩
          · have hieq : i / d = m - 1 := by omega
            have hD : d * (m - 1) ≤ i := by
              have hc := (Nat.le_div_iff_mul_le hd).mp (by omega : m - 1 ≤ i / d)
              rw [Nat.mul_comm] at hc
              exact hc
            have hsub : i - d * (m - 1) = i % d := by
              have hdm := Nat.div_add_mod i d
              rw [hieq] at hdm
              omega
            exact Or.inr ⟨hD, by rw [hsub]; exact h2⟩
      · rw [if_neg hpar]
        rw [hfull i]
        constructor
        · rintro ⟨h1, h2⟩
          exact ⟨by omega, h2⟩
        · rintro ⟨h1, h2⟩
          exact ⟨by omega, h2⟩

theorem ceil_le_iff {c step k : Nat} (hstep : 0 < step) :
    (c + step - 1) / step ≤ k ↔ c ≤ step * k := by
  have hcomm : (k + 1) * step = step * k + step := by ring
  constructor
  · intro h
    have h2 : (c + step - 1) / step < k + 1 := by omega
    have h3 := (Nat.div_lt_iff_lt_mul hstep).mp h2
    omega
  · intro h
    have h3 : c + step - 1 < (k + 1) * step := by omega
    have h4 := (Nat.div_lt_iff_lt_mul hstep).mpr h3
    omega

theorem progFrom_ge (start step a : Nat) (hstep : 0 < step) : a ≤ progFrom start step a := by
  unfold progFrom
  split
  · omega
  · have := (@ceil_le_iff (a - start) step ((a - start + step - 1) / step) hstep).mp
      (Nat.le_refl _)
    omega

theorem progFrom_mem (start step a : Nat) : ∃ k, progFrom start step a = start + step * k := by
  unfold progFrom
  split
  · exact ⟨0, by simp⟩
  · exact ⟨(a - start + step - 1) / step, rfl⟩

theorem progFrom_min (start step a x k : Nat) (hstep : 0 < step)
    (hx : x = start + step * k) (hax : a ≤ x) :
    ∃ kk, x = progFrom start step a + step * kk := by
  unfold progFrom
  split
  · exact ⟨k, hx⟩
  · rename_i hn
    set K := (a - start + step - 1) / step with hK
    have hKle : K ≤ k := (ceil_le_iff hstep).mpr (by omega)
    have hms : step * (k - K) + step * K = step * k := by
      rw [← Nat.mul_add]
      congr 1
      omega
    exact ⟨k - K, by omega⟩

theorem segProgMask_testBit (start step a b : Nat) (hstep : 0 < step) (hb64 : b < 2 ^ 64) :
    ∀ j, ((segProgMask start step a b).testBit j = true) ↔
      (∃ k, a + j = start + step * k ∧ a + j < b) := by
  intro j
  unfold segProgMask
  dsimp only
  have h1step : (1 : Nat) < 2 ^ step := by
    have : (2:Nat) ^ 1 ≤ 2 ^ step := Nat.pow_le_pow_right (by omega) (by omega)
    omega
  have ht0a := progFrom_ge start step a hstep
  obtain ⟨k0, hk0⟩ := progFrom_mem start step a
  set t0 := progFrom start step a with ht0def
  by_cases ht0b : t0 < b
  · rw [if_pos ht0b]
    have hm64 : (b - 1 - t0) / step + 1 < 2 ^ 64 := by
      have : (b - 1 - t0) / step ≤ b - 1 - t0 := Nat.div_le_self _ _
      omega
    rw [Nat.testBit_shiftLeft, Bool.and_eq_true, decide_eq_true_eq,
      repUnit_testBit 64 _ hm64 1 step hstep h1step, testBit_one_iff]
    constructor
    · rintro ⟨h1, h2, h3⟩
      set r := j - (t0 - a) with hr
      have hrstep : r = step * (r / step) := by
        have := Nat.div_add_mod r step
        omega
      refine ⟨k0 + r / step, ?_, ?_⟩
      · have : a + j = t0 + r := by omega
        rw [this, hk0, Nat.mul_add]
        omega
      · have hq : r / step ≤ (b - 1 - t0) / step := by omega
        have hqs := (Nat.le_div_iff_mul_le hstep).mp hq
        rw [Nat.mul_comm] at hqs
        have : a + j = t0 + r := by omega
        omega
    · rintro ⟨k, hx, hxb⟩
      obtain ⟨kk, hkk⟩ := progFrom_min start step a (a + j) k hstep hx (by omega)
      rw [← ht0def] at hkk
      have hj : j = (t0 - a) + step * kk := by omega
      refine ⟨by omega, ?_, ?_⟩
      · have hsub : j - (t0 - a) = step * kk := by omega
        rw [hsub, Nat.mul_div_cancel_left _ hstep]
        have hkb : t0 + step * kk < b := by omega
        have : kk ≤ (b - 1 - t0) / step := (Nat.le_div_iff_mul_le hstep).mpr
          (by rw [Nat.mul_comm]; omega)
        omega
      · have hsub : j - (t0 - a) = step * kk := by omega
        rw [hsub]
        exact Nat.mul_mod_right _ _
  · rw [if_neg ht0b]
    rw [Nat.testBit_shiftLeft, Bool.and_eq_true, decide_eq_true_eq,
      repUnit_testBit 64 0 (Nat.two_pow_pos 64) 1 step hstep h1step, testBit_one_iff]
    constructor
    · rintro ⟨-, h2, -⟩
      exact absurd h2 (Nat.not_lt_zero _)
    · rintro ⟨k, hx, hxb⟩
      obtain ⟨kk, hkk⟩ := progFrom_min start step a (a + j) k hstep hx (by omega)
      rw [← ht0def] at hkk
      omega

theorem hasOddDivAux_true {n : Nat} : ∀ (fuel d : Nat),
    hasOddDivAux n d fuel = true →
      ∃ e, d ≤ e ∧ e % 2 = d % 2 ∧ e ∣ n ∧ e * e ≤ n := by
  intro fuel
  induction fuel with
  | zero =>
    intro d h
    exact absurd h (by simp [hasOddDivAux])
  | succ fuel ih =>
    intro d h
    simp only [hasOddDivAux] at h
    by_cases hsq : d * d ≤ n
    · rw [if_pos hsq] at h
      by_cases hdvd : n % d = 0
      · exact ⟨d, Nat.le_refl d, rfl, Nat.dvd_of_mod_eq_zero hdvd, hsq⟩
      · rw [if_neg hdvd] at h
        obtain ⟨e, he, hpar, hd, hsq'⟩ := ih (d + 2) h
        exact ⟨e, by omega, by omega, hd, hsq'⟩
    · rw [if_neg hsq] at h
      exact Bool.noConfusion h

theorem hasOddDivAux_complete {n : Nat} : ∀ (fuel d e : Nat), 0 < d → d ≤ e →
    e % 2 = d % 2 → e ∣ n → e * e ≤ n → e < d + 2 * fuel →
    hasOddDivAux n d fuel = true := by
  intro fuel
  induction fuel with
  | zero =>
    intro d e hd0 h1 h2 h3 h4 h5
    omega
  | succ fuel ih =>
    intro d e hd0 h1 h2 h3 h4 h5
    have hdd : d * d ≤ n := Nat.le_trans (Nat.mul_le_mul h1 h1) h4
    simp only [hasOddDivAux]
    rw [if_pos hdd]
    by_cases hdvd : n % d = 0
    · rw [if_pos hdvd]
    · rw [if_neg hdvd]
      have hne : e ≠ d := by
        intro he
        subst he
        exact hdvd (Nat.mod_eq_zero_of_dvd h3)
      exact ih (d + 2) e (by omega) (by omega) (by omega) h3 h4 (by omega)

theorem isOddPrimeB_iff (n : Nat) (hodd : n % 2 = 1) (h3 : 3 ≤ n) :
    isOddPrimeB n = true ↔ Nat.Prime n := by
  unfold isOddPrimeB
  rw [decide_eq_true hodd, decide_eq_true h3]
  simp only [Bool.true_and, Bool.not_eq_eq_eq_not, Bool.not_true]
  constructor
  · intro hno
    by_contra hnp
    have hoc : OddComposite n := ⟨hodd, by omega, hnp⟩
    obtain ⟨hp, hp3, hpodd, hpdvd, hpsq, hplt⟩ := minFac_facts hoc
    have := hasOddDivAux_complete n 3 n.minFac (by omega) hp3 (by omega) hpdvd hpsq
      (by omega)
    rw [this] at hno
    exact Bool.noConfusion hno
  · intro hp
    by_contra hyes
    have htrue : hasOddDivAux n 3 n = true := by
      cases hB : hasOddDivAux n 3 n with
      | false => exact absurd hB hyes
      | true => rfl
    obtain ⟨e, he3, hpar, hdvd, hsq⟩ := hasOddDivAux_true n 3 htrue
    rcases (Nat.Prime.eq_one_or_self_of_dvd hp e hdvd) with he1 | hen
    · omega
    · subst hen
      have hnn : 3 * e ≤ e * e := Nat.mul_le_mul_right e he3
      omega

theorem orTree_leaf_iff (a b f j : Nat) (hb64 : b < 2 ^ 64) (hf3 : 3 ≤ f)
    (hfodd : f % 2 = 1) (hguard : f * f < b) :
    ((if isOddPrimeB f then segProgMask (f * f) (2 * f) a b
        else 0).testBit j = true) ↔
      (∃ t, t < 1 ∧ Nat.Prime (f + 2 * t) ∧ (f + 2 * t) * (f + 2 * t) < b ∧
        ∃ k, a + j = (f + 2 * t) * (f + 2 * t) + 2 * (f + 2 * t) * k ∧ a + j < b) := by
  by_cases hp : isOddPrimeB f = true
  · rw [if_pos hp]
    have hprime : Nat.Prime f := (isOddPrimeB_iff f hfodd hf3).mp hp
    rw [segProgMask_testBit (f * f) (2 * f) a b (by omega) hb64 j]
    constructor
    · rintro ⟨k, hk, hkb⟩
      exact ⟨0, by omega, by simpa using hprime, by simpa using hguard, k,
        by simpa using hk, hkb⟩
    · rintro ⟨t, ht, hpt, hg, k, hk, hkb⟩
      have ht0 : t = 0 := by omega
      subst ht0
      exact ⟨k, by simpa using hk, hkb⟩
  · rw [if_neg hp]
    rw [Nat.zero_testBit]
    constructor
    · intro h
      exact Bool.noConfusion h
    · rintro ⟨t, ht, hpt, -⟩
      have ht0 : t = 0 := by omega
      subst ht0
      exact absurd ((isOddPrimeB_iff f hfodd hf3).mpr (by simpa using hpt)) hp

theorem orTree_zero_iff (a b f cnt j : Nat) (hguard : ¬ f * f < b) :
    ((0 : Nat).testBit j = true) ↔
      (∃ t, t < cnt ∧ Nat.Prime (f + 2 * t) ∧ (f + 2 * t) * (f + 2 * t) < b ∧
        ∃ k, a + j = (f + 2 * t) * (f + 2 * t) + 2 * (f + 2 * t) * k ∧ a + j < b) := by
  rw [Nat.zero_testBit]
  constructor
  · intro h
    exact Bool.noConfusion h
  · rintro ⟨t, ht, hpt, hg, -⟩
    have hmono : f * f ≤ (f + 2 * t) * (f + 2 * t) :=
      Nat.mul_le_mul (by omega) (by omega)
    omega

theorem orTree_testBit (a b : Nat) (hb64 : b < 2 ^ 64) :
    ∀ (fuel f cnt : Nat), cnt ≤ 2 ^ fuel → 3 ≤ f → f % 2 = 1 →
    ∀ j, ((orTree a b fuel f cnt).testBit j = true) ↔
      (∃ t, t < cnt ∧ Nat.Prime (f + 2 * t) ∧ (f + 2 * t) * (f + 2 * t) < b ∧
        ∃ k, a + j = (f + 2 * t) * (f + 2 * t) + 2 * (f + 2 * t) * k ∧ a + j < b) := by
  intro fuel
  induction fuel with
  | zero =>
    intro f cnt hcnt hf3 hodd j
    have hc01 : cnt = 0 ∨ cnt = 1 := by
      have : (2:Nat) ^ 0 = 1 := rfl
      omega
    simp only [orTree]
    by_cases hguard : f * f < b
    · rw [if_pos hguard]
      rcases hc01 with hc | hc
      · subst hc
        rw [if_neg (by omega)]
        rw [Nat.zero_testBit]
        constructor
        · intro h
          exact Bool.noConfusion h
        · rintro ⟨t, ht, -⟩
          exact absurd ht (Nat.not_lt_zero t)
      · subst hc
        rw [if_pos rfl]
        exact orTree_leaf_iff a b f j hb64 hf3 hodd hguard
    · rw [if_neg hguard]
      exact orTree_zero_iff a b f cnt j hguard
  | succ fuel ih =>
    intro f cnt hcnt hf3 hodd j
    simp only [orTree]
    by_cases hguard : f * f < b
    · rw [if_pos hguard]
      by_cases hc0 : cnt = 0
      · subst hc0
        rw [if_pos rfl]
        rw [Nat.zero_testBit]
        constructor
        · intro h
          exact Bool.noConfusion h
        · rintro ⟨t, ht, -⟩
          exact absurd ht (Nat.not_lt_zero t)
      · rw [if_neg hc0]
        by_cases hc1 : cnt = 1
        · subst hc1
          rw [if_pos rfl]
          exact orTree_leaf_iff a b f j hb64 hf3 hodd hguard
        · rw [if_neg hc1]
          have hpow : (2:Nat) ^ (fuel + 1) = 2 * 2 ^ fuel := by ring
          rw [Nat.testBit_lor, Bool.or_eq_true,
            ih f (cnt - cnt / 2) (by omega) hf3 hodd j,
            ih (f + 2 * (cnt - cnt / 2)) (cnt / 2) (by omega) (by omega) (by omega) j]
          constructor
          · rintro (⟨t, ht, hpt, hg, k, hk, hkb⟩ | ⟨t, ht, hpt, hg, k, hk, hkb⟩)
            · exact ⟨t, by omega, hpt, hg, k, hk, hkb⟩
            · have hfe : f + 2 * (cnt - cnt / 2) + 2 * t = f + 2 * (cnt - cnt / 2 + t) := by
                omega
              rw [hfe] at hpt hg hk
              exact ⟨cnt - cnt / 2 + t, by omega, hpt, hg, k, hk, hkb⟩
          · rintro ⟨t, ht, hpt, hg, k, hk, hkb⟩
            by_cases hsm : t < cnt - cnt / 2
            · exact Or.inl ⟨t, hsm, hpt, hg, k, hk, hkb⟩
            · have hfe : f + 2 * t = f + 2 * (cnt - cnt / 2) + 2 * (t - (cnt - cnt / 2)) := by
                omega
              rw [hfe] at hpt hg hk
              exact Or.inr ⟨t - (cnt - cnt / 2), by omega, hpt, hg, k, hk, hkb⟩
    · rw [if_neg hguard]
      exact orTree_zero_iff a b f cnt j hguard

theorem segSieveOr_testBit (a b : Nat) (hb64 : b < 2 ^ 64) (j : Nat) :
    ((segSieveOr a b).testBit j = true) ↔
      (∃ g, 3 ≤ g ∧ g % 2 = 1 ∧ Nat.Prime g ∧ g * g < b ∧
        ∃ k, a + j = g * g + 2 * g * k ∧ a + j < b) := by
  unfold segSieveOr
  rw [orTree_testBit a b hb64 64 3 b (Nat.le_of_lt hb64) (Nat.le_refl 3) rfl j]
  constructor
  · rintro ⟨t, ht, hpt, hg, k, hk, hkb⟩
    exact ⟨3 + 2 * t, by omega, by omega, hpt, hg, k, hk, hkb⟩
  · rintro ⟨g, hg3, hgodd, hgp, hgg, k, hk, hkb⟩
    have hgb : g ≤ g * g := Nat.le_mul_of_pos_left g (by omega)
    have hge : 3 + 2 * ((g - 3) / 2) = g := by omega
    refine ⟨(g - 3) / 2, by omega, ?_, ?_, k, ?_, hkb⟩
    · rw [hge]
      exact hgp
    · rw [hge]
      exact hgg
    · rw [hge]
      exact hk

theorem segOddMask_testBit (a b : Nat) (hb64 : b < 2 ^ 64) (j : Nat) :
    ((segOddMask a b).testBit j = true) ↔
      (3 ≤ a + j ∧ (a + j) % 2 = 1 ∧ a + j < b) := by
  unfold segOddMask
  rw [segProgMask_testBit 3 2 a b (by omega) hb64 j]
  constructor
  · rintro ⟨k, hk, hkb⟩
    exact ⟨by omega, by omega, hkb⟩
  · rintro ⟨h3, hoddx, hxb⟩
    exact ⟨(a + j - 3) / 2, by omega, hxb⟩

/-- The combined segment mask has a set bit (relative position `j`) exactly at
the odd non-primes `a + j` of `[a, b)` that are `≥ 3`. -/
theorem segMask_testBit (a b : Nat) (hb64 : b < 2 ^ 64) (j : Nat) :
    (((segSieveOr a b &&& segOddMask a b)).testBit j = true) ↔
      (a + j < b ∧ 3 ≤ a + j ∧ (a + j) % 2 = 1 ∧ ¬ Nat.Prime (a + j)) := by
  rw [Nat.testBit_land, Bool.and_eq_true, segSieveOr_testBit a b hb64 j,
    segOddMask_testBit a b hb64 j]
  constructor
  · rintro ⟨⟨g, hg3, hgodd, hgp, hgg, k, hk, hkb⟩, h3, hoddx, hxb⟩
    refine ⟨hxb, h3, hoddx, ?_⟩
    have hk' : a + j = g * g + g * 2 * k := by
      rw [hk]
      ring
    exact (ClearedBy_OddComposite (progression_ClearedBy hg3 hgodd hk')).2.2
  · rintro ⟨hxb, h3, hoddx, hnp⟩
    have hoc : OddComposite (a + j) := ⟨hoddx, by omega, hnp⟩
    obtain ⟨hp, hp3, hpodd, hpdvd, hpsq, hplt⟩ := minFac_facts hoc
    obtain ⟨k, hk⟩ := elem_progression hp3 hpodd hpdvd hpsq hoddx
    refine ⟨⟨(a + j).minFac, hp3, hpodd, hp, by omega, k, ?_, hxb⟩, h3, hoddx, hxb⟩
    have hcomm : (a + j).minFac * 2 * k = 2 * (a + j).minFac * k := by ring
    omega

/-! Verified parallel bit count: digit sums in growing bases. -/

theorem digitSum_lt {W : Nat} (hW : 0 < W) : ∀ (c : Nat) (g : Nat → Nat),
    (∀ j, j < c → g j < 2 ^ W) →
    (∑ j ∈ Finset.range c, g j * 2 ^ (W * j)) < 2 ^ (W * c) := by
  intro c
  induction c with
  | zero =>
    intro g hg
    simp
  | succ c ih =>
    intro g hg
    rw [Finset.sum_range_succ]
    have h1 := ih g (fun j hj => hg j (by omega))
    calc (∑ j ∈ Finset.range c, g j * 2 ^ (W * j)) + g c * 2 ^ (W * c)
        < 2 ^ (W * c) + g c * 2 ^ (W * c) := by omega
      _ = (g c + 1) * 2 ^ (W * c) := by ring
      _ ≤ 2 ^ W * 2 ^ (W * c) :=
        Nat.mul_le_mul_right _ (by have := hg c (by omega); omega)
      _ = 2 ^ (W * (c + 1)) := by
        rw [← Nat.pow_add]
        congr 1
        ring

theorem digitSum_extract {W : Nat} (hW : 0 < W) : ∀ (c : Nat) (g : Nat → Nat),
    (∀ j, j < c → g j < 2 ^ W) → ∀ t, t < c →
    (∑ j ∈ Finset.range c, g j * 2 ^ (W * j)) / 2 ^ (W * t) % 2 ^ W = g t := by
  intro c
  induction c with
  | zero =>
    intro g hg t ht
    exact absurd ht (Nat.not_lt_zero t)
  | succ c ih =>
    intro g hg t ht
    have hpeel : (∑ j ∈ Finset.range (c + 1), g j * 2 ^ (W * j)) =
        g 0 + (∑ j ∈ Finset.range c, g (j + 1) * 2 ^ (W * j)) * 2 ^ W := by
      rw [Finset.sum_range_succ']
      rw [Finset.sum_mul]
      simp only [Nat.mul_zero, Nat.pow_zero, Nat.mul_one]
      rw [Nat.add_comm]
      congr 1
      refine Finset.sum_congr rfl fun j hj => ?_
      have hWj : W * (j + 1) = W * j + W := by ring
      rw [hWj, Nat.pow_add, Nat.mul_assoc]
    rw [hpeel]
    cases t with
    | zero =>
      rw [Nat.mul_zero, Nat.pow_zero, Nat.div_one, Nat.add_mul_mod_self_right]
      exact Nat.mod_eq_of_lt (hg 0 (by omega))
    | succ t =>
      have hdd : (g 0 + (∑ j ∈ Finset.range c, g (j + 1) * 2 ^ (W * j)) * 2 ^ W) /
          2 ^ (W * (t + 1)) =
          (∑ j ∈ Finset.range c, g (j + 1) * 2 ^ (W * j)) / 2 ^ (W * t) := by
        have hsplit : (2:Nat) ^ (W * (t + 1)) = 2 ^ W * 2 ^ (W * t) := by
          rw [← Nat.pow_add]
          congr 1
          ring
        rw [hsplit, ← Nat.div_div_eq_div_mul, Nat.add_mul_div_right _ _ (Nat.two_pow_pos W),
          Nat.div_eq_of_lt (hg 0 (by omega)), Nat.zero_add]
      rw [hdd]
      exact ih (fun j => g (j + 1)) (fun j hj => hg (j + 1) (by omega)) t (by omega)

theorem mod_pow_div_parity (A W r : Nat) (hr : r < W) :
    A / 2 ^ r % 2 = (A % 2 ^ W) / 2 ^ r % 2 := by
  have hsplit : A = A % 2 ^ W + 2 ^ r * (2 ^ (W - r) * (A / 2 ^ W)) := by
    have h1 : (2:Nat) ^ r * 2 ^ (W - r) = 2 ^ W := by
      rw [← Nat.pow_add]
      congr 1
      omega
    have h2 := Nat.div_add_mod A (2 ^ W)
    have h3 : 2 ^ r * (2 ^ (W - r) * (A / 2 ^ W)) = 2 ^ W * (A / 2 ^ W) := by
      rw [← Nat.mul_assoc, h1]
    omega
  conv_lhs => rw [hsplit]
  rw [Nat.add_mul_div_left _ _ (Nat.two_pow_pos r)]
  have heven : (2:Nat) ^ (W - r) = 2 * 2 ^ (W - r - 1) := by
    rw [← pow_succ']
    congr 1
    omega
  have : 2 ^ (W - r) * (A / 2 ^ W) = 2 * (2 ^ (W - r - 1) * (A / 2 ^ W)) := by
    rw [heven, Nat.mul_assoc]
  omega

theorem digitSum_testBit {W : Nat} (hW : 0 < W) (c : Nat) (g : Nat → Nat)
    (hg : ∀ j, j < c → g j < 2 ^ W) (i : Nat) :
    (((∑ j ∈ Finset.range c, g j * 2 ^ (W * j)).testBit i) = true) ↔
      (i / W < c ∧ (g (i / W)).testBit (i % W) = true) := by
  set X := ∑ j ∈ Finset.range c, g j * 2 ^ (W * j) with hX
  by_cases hq : i / W < c
  · have hiWq : X / 2 ^ i = X / 2 ^ (W * (i / W)) / 2 ^ (i % W) := by
      rw [Nat.div_div_eq_div_mul, ← Nat.pow_add]
      congr 2
      have := Nat.div_add_mod i W
      omega
    rw [Nat.testBit_to_div_mod, Nat.testBit_to_div_mod, decide_eq_true_eq, decide_eq_true_eq]
    rw [hiWq]
    rw [mod_pow_div_parity (X / 2 ^ (W * (i / W))) W (i % W) (Nat.mod_lt i hW)]
    rw [digitSum_extract hW c g hg (i / W) hq]
    simp only [hq, true_and]
  · have hbig : X < 2 ^ i := by
      have h1 : X < 2 ^ (W * c) := digitSum_lt hW c g hg
      have h2 : W * c ≤ i := by
        have h3 := (Nat.le_div_iff_mul_le hW).mp (by omega : c ≤ i / W)
        have h4 : c * W = W * c := Nat.mul_comm _ _
        omega
      have h5 : (2:Nat) ^ (W * c) ≤ 2 ^ i := Nat.pow_le_pow_right (by omega) h2
      omega
    rw [Nat.testBit_eq_false_of_lt hbig]
    constructor
    · intro h
      exact Bool.noConfusion h
    · rintro ⟨h1, -⟩
      exact absurd h1 hq

theorem land_mask_digits (x W c : Nat) (hW : 0 < W) (hc64 : c < 2 ^ 64) :
    x &&& repUnit (2 ^ W - 1) (2 * W) 64 c =
      ∑ j ∈ Finset.range c, (x / 2 ^ (2 * W * j) % 2 ^ W) * 2 ^ (2 * W * j) := by
  have hu : (2:Nat) ^ W - 1 < 2 ^ (2 * W) := by
    have : (2:Nat) ^ W ≤ 2 ^ (2 * W) := Nat.pow_le_pow_right (by omega) (by omega)
    have := Nat.two_pow_pos W
    omega
  have hdig : ∀ j, j < c → x / 2 ^ (2 * W * j) % 2 ^ W < 2 ^ (2 * W) := by
    intro j hj
    have h1 : x / 2 ^ (2 * W * j) % 2 ^ W < 2 ^ W := Nat.mod_lt _ (Nat.two_pow_pos W)
    have h2 : (2:Nat) ^ W ≤ 2 ^ (2 * W) := Nat.pow_le_pow_right (by omega) (by omega)
    omega
  refine Nat.eq_of_testBit_eq fun i => ?_
  apply bool_eq_of_true_iff
  rw [Nat.testBit_land, Bool.and_eq_true,
    repUnit_testBit 64 c hc64 _ (2 * W) (by omega) hu,
    Nat.testBit_two_pow_sub_one, decide_eq_true_eq,
    digitSum_testBit (by omega : 0 < 2 * W) c _ hdig i]
  have hmm : ∀ q, (x / 2 ^ (2 * W * q) % 2 ^ W).testBit (i % (2 * W)) = true ↔
      (i % (2 * W) < W ∧ x.testBit (2 * W * q + i % (2 * W)) = true) := by
    intro q
    rw [Nat.testBit_mod_two_pow, Bool.and_eq_true, decide_eq_true_eq]
    constructor
    · rintro ⟨h1, h2⟩
      rw [← Nat.shiftRight_eq_div_pow, Nat.testBit_shiftRight] at h2
      exact ⟨h1, h2⟩
    · rintro ⟨h1, h2⟩
      refine ⟨h1, ?_⟩
      rw [← Nat.shiftRight_eq_div_pow, Nat.testBit_shiftRight]
      exact h2
  rw [hmm (i / (2 * W))]
  have hrec : 2 * W * (i / (2 * W)) + i % (2 * W) = i := Nat.div_add_mod i (2 * W)
  rw [hrec]
  constructor
  · rintro ⟨hx, h1, h2⟩
    exact ⟨h1, h2, hx⟩
  · rintro ⟨h1, h2, hx⟩
    exact ⟨hx, h1, h2⟩

theorem shift_land_mask_digits (x W c : Nat) (hW : 0 < W) (hc64 : c < 2 ^ 64) :
    (x >>> W) &&& repUnit (2 ^ W - 1) (2 * W) 64 c =
      ∑ j ∈ Finset.range c, (x / 2 ^ (2 * W * j + W) % 2 ^ W) * 2 ^ (2 * W * j) := by
  rw [land_mask_digits (x >>> W) W c hW hc64]
  refine Finset.sum_congr rfl fun j hj => ?_
  congr 2
  rw [Nat.shiftRight_eq_div_pow, Nat.div_div_eq_div_mul, ← Nat.pow_add]
  congr 2
  ring

theorem sum_range_two_mul (c : Nat) (h : Nat → Nat) :
    ∑ t ∈ Finset.range (2 * c), h t = ∑ j ∈ Finset.range c, (h (2 * j) + h (2 * j + 1)) := by
  induction c with
  | zero => rfl
  | succ c ih =>
    have h2c : 2 * (c + 1) = 2 * c + 1 + 1 := by ring
    rw [h2c, Finset.sum_range_succ, Finset.sum_range_succ, ih, Finset.sum_range_succ]
    have e1 : 2 * c + 1 = 2 * c + 1 := rfl
    omega

/-- One round of the parallel bit count preserves the digit sum, doubling the
digit width. -/
theorem swar_level (W c x : Nat) (hW : 0 < W) (hc64 : c < 2 ^ 64) :
    chunkSumB (2 * W) c
      ((x &&& repUnit (2 ^ W - 1) (2 * W) 64 c) +
        ((x >>> W) &&& repUnit (2 ^ W - 1) (2 * W) 64 c)) =
    chunkSumB W (2 * c) x := by
  have hd : ∀ j, j < c → x / 2 ^ (2 * W * j) % 2 ^ W + x / 2 ^ (2 * W * j + W) % 2 ^ W <
      2 ^ (2 * W) := by
    intro j hj
    have h1 : x / 2 ^ (2 * W * j) % 2 ^ W < 2 ^ W := Nat.mod_lt _ (Nat.two_pow_pos W)
    have h2 : x / 2 ^ (2 * W * j + W) % 2 ^ W < 2 ^ W := Nat.mod_lt _ (Nat.two_pow_pos W)
    have h3 : (2:Nat) ^ W * 2 ^ W = 2 ^ (2 * W) := by
      rw [← Nat.pow_add]
      congr 1
      ring
    have h4 : (2:Nat) ≤ 2 ^ W := by
      have h5 : (2:Nat) ^ 1 ≤ 2 ^ W := Nat.pow_le_pow_right (by omega) hW
      omega
    have h6 : 2 * 2 ^ W ≤ 2 ^ W * 2 ^ W := Nat.mul_le_mul_right _ h4
    omega
  rw [land_mask_digits x W c hW hc64, shift_land_mask_digits x W c hW hc64,
    ← Finset.sum_add_distrib]
  have hsum : (∑ j ∈ Finset.range c,
      ((x / 2 ^ (2 * W * j) % 2 ^ W) * 2 ^ (2 * W * j) +
       (x / 2 ^ (2 * W * j + W) % 2 ^ W) * 2 ^ (2 * W * j))) =
      ∑ j ∈ Finset.range c,
        (x / 2 ^ (2 * W * j) % 2 ^ W + x / 2 ^ (2 * W * j + W) % 2 ^ W) * 2 ^ (2 * W * j) := by
    refine Finset.sum_congr rfl fun j hj => ?_
    ring
  rw [hsum]
  unfold chunkSumB
  have hext : ∀ t, t < c →
      (∑ j ∈ Finset.range c,
        (x / 2 ^ (2 * W * j) % 2 ^ W + x / 2 ^ (2 * W * j + W) % 2 ^ W) * 2 ^ (2 * W * j)) /
          2 ^ (2 * W * t) % 2 ^ (2 * W) =
      x / 2 ^ (2 * W * t) % 2 ^ W + x / 2 ^ (2 * W * t + W) % 2 ^ W := by
    intro t ht
    exact digitSum_extract (by omega : 0 < 2 * W) c _ hd t ht
  rw [Finset.sum_congr rfl fun t ht => hext t (Finset.mem_range.mp ht)]
  rw [sum_range_two_mul c (fun t => x / 2 ^ (W * t) % 2 ^ W)]
  refine Finset.sum_congr rfl fun j hj => ?_
  congr 2
  · congr 2
    ring
  · congr 2
    ring

theorem swarLoop_chunkSum : ∀ (st W x : Nat), 0 < W → st < 64 → x < 2 ^ (W * 2 ^ st) →
    swarLoop st W x = chunkSumB W (2 ^ st) x := by
  intro st
  induction st with
  | zero =>
    intro W x hW hst hx
    simp only [swarLoop, chunkSumB, Finset.sum_range_one, Nat.mul_zero, Nat.pow_zero,
      Nat.div_one]
    have : W * 2 ^ 0 = W := by ring
    rw [this] at hx
    exact (Nat.mod_eq_of_lt hx).symm
  | succ st ih =>
    intro W x hW hst hx
    simp only [swarLoop]
    have hshift : (1 <<< W) - 1 = 2 ^ W - 1 := by
      rw [Nat.shiftLeft_eq, Nat.one_mul]
    have hcnt : (1 <<< st) = 2 ^ st := by
      rw [Nat.shiftLeft_eq, Nat.one_mul]
    rw [hshift, hcnt]
    have hc64 : (2:Nat) ^ st < 2 ^ 64 := Nat.pow_lt_pow_right (by omega) (by omega)
    have hxd : x < 2 ^ (2 * W * 2 ^ st) := by
      have : W * 2 ^ (st + 1) = 2 * W * 2 ^ st := by
        rw [Nat.pow_succ]
        ring
      rw [this] at hx
      exact hx
    have hybound :
        (x &&& repUnit (2 ^ W - 1) (2 * W) 64 (2 ^ st)) +
          ((x >>> W) &&& repUnit (2 ^ W - 1) (2 * W) 64 (2 ^ st)) < 2 ^ (2 * W * 2 ^ st) := by
      rw [land_mask_digits x W _ hW hc64, shift_land_mask_digits x W _ hW hc64,
        ← Finset.sum_add_distrib]
      have hsum2 : (∑ j ∈ Finset.range (2 ^ st),
          ((x / 2 ^ (2 * W * j) % 2 ^ W) * 2 ^ (2 * W * j) +
           (x / 2 ^ (2 * W * j + W) % 2 ^ W) * 2 ^ (2 * W * j))) =
          ∑ j ∈ Finset.range (2 ^ st),
            (x / 2 ^ (2 * W * j) % 2 ^ W + x / 2 ^ (2 * W * j + W) % 2 ^ W) *
              2 ^ (2 * W * j) := by
        refine Finset.sum_congr rfl fun j hj => ?_
        ring
      rw [hsum2]
      refine digitSum_lt (by omega : 0 < 2 * W) _ _ fun j hj => ?_
      have h1 : x / 2 ^ (2 * W * j) % 2 ^ W < 2 ^ W := Nat.mod_lt _ (Nat.two_pow_pos W)
      have h2 : x / 2 ^ (2 * W * j + W) % 2 ^ W < 2 ^ W := Nat.mod_lt _ (Nat.two_pow_pos W)
      have h3 : (2:Nat) ^ W * 2 ^ W = 2 ^ (2 * W) := by
        rw [← Nat.pow_add]
        congr 1
        ring
      have h4 : (2:Nat) ≤ 2 ^ W := by
        have h5 : (2:Nat) ^ 1 ≤ 2 ^ W := Nat.pow_le_pow_right (by omega) hW
        omega
      have h6 : 2 * 2 ^ W ≤ 2 ^ W * 2 ^ W := Nat.mul_le_mul_right _ h4
      omega
    rw [ih (2 * W) _ (by omega) (by omega) hybound]
    rw [swar_level W (2 ^ st) x hW hc64]
    have : 2 * 2 ^ st = 2 ^ (st + 1) := by
      rw [Nat.pow_succ]
      ring
    rw [this]

theorem swarLoop_count (s x : Nat) (hs : s < 64) (hx : x < 2 ^ 2 ^ s) :
    swarLoop s 1 x = countBits (2 ^ s) x := by
  rw [swarLoop_chunkSum s 1 x (by omega) hs (by rw [Nat.one_mul]; exact hx)]
  unfold chunkSumB countBits
  rw [Finset.card_filter]
  refine Finset.sum_congr rfl fun t ht => ?_
  rw [Nat.one_mul, Nat.testBit_to_div_mod]
  have hlt : x / 2 ^ t % 2 < 2 := Nat.mod_lt _ (by omega)
  by_cases hb : x / 2 ^ t % 2 = 1
  · rw [if_pos (by simpa using hb)]
    omega
  · rw [if_neg (by simpa using hb)]
    omega

/-- The segmented mask computation counts exactly the odd non-primes of
`[max 3 a, b)`. -/
theorem segCount_eq_CompC (s a b : Nat) (hs : s < 64) (hb64 : b < 2 ^ 64)
    (hba : b - a ≤ 2 ^ s) : segCount s a b = CompC a b := by
  unfold segCount CompC
  set X := segSieveOr a b &&& segOddMask a b with hXdef
  have hxlt : X < 2 ^ 2 ^ s := by
    refine Nat.lt_pow_two_of_testBit X fun i hi => ?_
    cases hbit : X.testBit i
    · rfl
    · exfalso
      have := (segMask_testBit a b hb64 i).mp hbit
      omega
  rw [swarLoop_count s X hs hxlt]
  unfold countBits
  have himg : ((Finset.range b).filter fun x => a ≤ x ∧ 3 ≤ x ∧ x % 2 = 1 ∧ ¬ Nat.Prime x) =
      ((Finset.range (2 ^ s)).filter fun i => X.testBit i = true).image (a + ·) := by
    ext x
    rw [Finset.mem_filter, Finset.mem_range, Finset.mem_image]
    constructor
    · rintro ⟨hxb, hax, h3, hodd, hnp⟩
      refine ⟨x - a, ?_, by omega⟩
      rw [Finset.mem_filter, Finset.mem_range]
      have hsub : a + (x - a) = x := by omega
      refine ⟨by omega, ?_⟩
      rw [segMask_testBit a b hb64 (x - a), hsub]
      exact ⟨hxb, h3, hodd, hnp⟩
    · rintro ⟨j, hj, hxj⟩
      rw [Finset.mem_filter, Finset.mem_range] at hj
      have := (segMask_testBit a b hb64 j).mp hj.2
      subst hxj
      exact ⟨by omega, by omega, by omega, by omega, this.2.2.2⟩
  rw [himg, Finset.card_image_of_injective _ (fun u v huv => by omega)]

/-! Numeric evaluation of the composite counts at the tested limits, through
the verified segmented bit-mask computation. -/

set_option maxRecDepth 1000000 in
theorem segCount_val_10 : segCount 4 0 10 = 1 := by decide

set_option maxRecDepth 1000000 in
theorem segCount_val_100 : segCount 7 0 100 = 25 := by decide

set_option maxRecDepth 1000000 in
theorem segCount_val_1000 : segCount 10 0 1000 = 332 := by decide

set_option maxRecDepth 1000000 in
theorem segCount_val_10000 : segCount 14 0 10000 = 3771 := by decide

set_option maxRecDepth 1000000 in
theorem segCount_val_100000 : segCount 17 0 100000 = 40408 := by decide

set_option maxRecDepth 1000000 in
theorem segCount_val_1000000 : segCount 20 0 1000000 = 421502 := by decide

set_option maxRecDepth 1000000 in
theorem segCount_val_10M_1 : segCount 21 0 2097152 = 892965 := by decide

set_option maxRecDepth 1000000 in
theorem segCount_val_10M_2 : segCount 21 2097152 4194304 = 908240 := by decide

set_option maxRecDepth 1000000 in
theorem segCount_val_10M_3 : segCount 21 4194304 6291456 = 913021 := by decide

set_option maxRecDepth 1000000 in
theorem segCount_val_10M_4 : segCount 21 6291456 8388608 = 915915 := by decide

set_option maxRecDepth 1000000 in
theorem segCount_val_10M_5 : segCount 21 8388608 10000000 = 705280 := by decide

theorem CompC_val_10 : CompC 0 10 = 1 := by
  rw [← segCount_eq_CompC 4 0 10 (by omega) (by omega) (by omega)]
  exact segCount_val_10

theorem CompC_val_100 : CompC 0 100 = 25 := by
  rw [← segCount_eq_CompC 7 0 100 (by omega) (by omega) (by omega)]
  exact segCount_val_100

theorem CompC_val_1000 : CompC 0 1000 = 332 := by
  rw [← segCount_eq_CompC 10 0 1000 (by omega) (by omega) (by omega)]
  exact segCount_val_1000

theorem CompC_val_10000 : CompC 0 10000 = 3771 := by
  rw [← segCount_eq_CompC 14 0 10000 (by omega) (by omega) (by omega)]
  exact segCount_val_10000

theorem CompC_val_100000 : CompC 0 100000 = 40408 := by
  rw [← segCount_eq_CompC 17 0 100000 (by omega) (by omega) (by omega)]
  exact segCount_val_100000

theorem CompC_val_1000000 : CompC 0 1000000 = 421502 := by
  rw [← segCount_eq_CompC 20 0 1000000 (by omega) (by omega) (by omega)]
  exact segCount_val_1000000

theorem CompC_val_10000000 : CompC 0 10000000 = 4335421 := by
  have h1 : CompC 0 2097152 = 892965 := by
    rw [← segCount_eq_CompC 21 0 2097152 (by omega) (by omega) (by omega)]
    exact segCount_val_10M_1
  have h2 : CompC 2097152 4194304 = 908240 := by
    rw [← segCount_eq_CompC 21 2097152 4194304 (by omega) (by omega) (by omega)]
    exact segCount_val_10M_2
  have h3 : CompC 4194304 6291456 = 913021 := by
    rw [← segCount_eq_CompC 21 4194304 6291456 (by omega) (by omega) (by omega)]
    exact segCount_val_10M_3
  have h4 : CompC 6291456 8388608 = 915915 := by
    rw [← segCount_eq_CompC 21 6291456 8388608 (by omega) (by omega) (by omega)]
    exact segCount_val_10M_4
  have h5 : CompC 8388608 10000000 = 705280 := by
    rw [← segCount_eq_CompC 21 8388608 10000000 (by omega) (by omega) (by omega)]
    exact segCount_val_10M_5
  have hs1 := CompC_split 0 2097152 10000000 (by omega) (by omega)
  have hs2 := CompC_split 2097152 4194304 10000000 (by omega) (by omega)
  have hs3 := CompC_split 4194304 6291456 10000000 (by omega) (by omega)
  have hs4 := CompC_split 6291456 8388608 10000000 (by omega) (by omega)
  omega

theorem countPrimes_val_10 : ((prime_sieve.init 10).runSieve).countPrimes = 4 := by
  have hsum := oddPrimeCount_add_CompC 10
  have hcomp := CompC_val_10
  rw [countPrimes_runSieve_init 10 (by omega)]
  omega

theorem countPrimes_val_100 : ((prime_sieve.init 100).runSieve).countPrimes = 25 := by
  have hsum := oddPrimeCount_add_CompC 100
  have hcomp := CompC_val_100
  rw [countPrimes_runSieve_init 100 (by omega)]
  omega

theorem countPrimes_val_1000 : ((prime_sieve.init 1000).runSieve).countPrimes = 168 := by
  have hsum := oddPrimeCount_add_CompC 1000
  have hcomp := CompC_val_1000
  rw [countPrimes_runSieve_init 1000 (by omega)]
  omega

theorem countPrimes_val_10000 : ((prime_sieve.init 10000).runSieve).countPrimes = 1229 := by
  have hsum := oddPrimeCount_add_CompC 10000
  have hcomp := CompC_val_10000
  rw [countPrimes_runSieve_init 10000 (by omega)]
  omega

theorem countPrimes_val_100000 :
    ((prime_sieve.init 100000).runSieve).countPrimes = 9592 := by
  have hsum := oddPrimeCount_add_CompC 100000
  have hcomp := CompC_val_100000
  rw [countPrimes_runSieve_init 100000 (by omega)]
  omega

theorem countPrimes_val_1000000 :
    ((prime_sieve.init 1000000).runSieve).countPrimes = 78498 := by
  have hsum := oddPrimeCount_add_CompC 1000000
  have hcomp := CompC_val_1000000
  rw [countPrimes_runSieve_init 1000000 (by omega)]
  omega

theorem countPrimes_val_10000000 :
    ((prime_sieve.init 10000000).runSieve).countPrimes = 664579 := by
  have hsum := oddPrimeCount_add_CompC 10000000
  have hcomp := CompC_val_10000000
  rw [countPrimes_runSieve_init 10000000 (by omega)]
  omega

theorem clearLoop_Bits_other : ∀ (fuel : Nat) (s : prime_sieve) (num step i : Nat),
    (¬ ∃ k, i = num + step * k) → (clearLoop fuel s num step).Bits i = s.Bits i := by
  intro fuel
  induction fuel with
  | zero =>
    intro s num step i hni
    rfl
  | succ fuel ih =>
    intro s num step i hni
    simp only [clearLoop]
    split
    · rw [ih (s.setFalse num) (num + step) step i
        (fun ⟨k, hk⟩ => hni ⟨k + 1, by rw [Nat.mul_succ]; omega⟩)]
      rw [setFalse_Bits, if_neg (fun hin => hni ⟨0, by omega⟩)]
    · rfl

/-- The outer loop never touches the flags at indices `≤ 2` or at even
indices, in any state and at any point of its execution. -/
theorem sieveLoop_low (i : Nat) (hi : i ≤ 2 ∨ i % 2 = 0) :
    ∀ (fuel : Nat) (s : prime_sieve) (f q : Nat), 3 ≤ f → f % 2 = 1 →
    (sieveLoop fuel s f q).Bits i = s.Bits i := by
  intro fuel
  induction fuel with
  | zero =>
    intro s f q hf3 hodd
    rfl
  | succ fuel ih =>
    intro s f q hf3 hodd
    simp only [sieveLoop]
    by_cases hguard : f ≤ q
    · rw [if_pos hguard]
      have hspec := scanLoop_spec s.size s f f (by omega : s.size ≤ f + 2 * s.size)
      set g := scanLoop s.size s f f with hgdef
      have hg : 3 ≤ g ∧ g % 2 = 1 := by
        rcases hspec with ⟨h1, -, -, h4, -⟩ | ⟨h1, -⟩
        · exact ⟨by omega, by omega⟩
        · exact ⟨by omega, by omega⟩
      rw [ih _ (g + 2) q (by omega) (by omega)]
      refine clearLoop_Bits_other _ _ _ _ _ ?_
      rintro ⟨k, hk⟩
      have hoc := ClearedBy_OddComposite (progression_ClearedBy hg.1 hg.2 hk)
      obtain ⟨hoddi, h1i, -⟩ := hoc
      omega
    · rw [if_neg hguard]

theorem runSieve_twice_Bits (N : Nat) :
    ∀ i, (((prime_sieve.init N).runSieve).runSieve).Bits i =
      ((prime_sieve.init N).runSieve).Bits i := by
  intro i
  have hchar := runSieve_init_char N
  have hsize : ((prime_sieve.init N).runSieve).size = N := by
    rw [runSieve_size, init_size]
  have hunfold : ((prime_sieve.init N).runSieve).runSieve =
      sieveLoop ((prime_sieve.init N).runSieve).size ((prime_sieve.init N).runSieve) 3
        (isqrt ((prime_sieve.init N).runSieve).size) := rfl
  rw [hunfold]
  exact sieveLoop_fix N _ _ 3 _ hsize (by omega) rfl hchar i

theorem runSieve_twice_countPrimes (N : Nat) :
    (((prime_sieve.init N).runSieve).runSieve).countPrimes =
      ((prime_sieve.init N).runSieve).countPrimes :=
  countPrimes_congr _ _ (by rw [runSieve_size]) (runSieve_twice_Bits N)

theorem no_small_divisor_iff_prime (k : Nat) (hk3 : 3 ≤ k) (hkodd : k % 2 = 1) :
    (¬ ∃ d, 3 ≤ d ∧ d ≤ Nat.sqrt k ∧ d ∣ k) ↔ Nat.Prime k := by
  constructor
  · intro h
    by_contra hnp
    obtain ⟨hp, hp3, hpodd, hdvd, hsq, hlt⟩ := minFac_facts ⟨hkodd, by omega, hnp⟩
    exact h ⟨k.minFac, hp3, Nat.le_sqrt.mpr hsq, hdvd⟩
  · rintro hp ⟨d, hd3, hdsq, hdvd⟩
    rcases Nat.Prime.eq_one_or_self_of_dvd hp d hdvd with h | h
    · omega
    · subst h
      have h1 := Nat.sqrt_lt_self (by omega : 1 < d)
      omega

theorem isPrime_odd_eq_Bits (s : prime_sieve) (k : Nat) (hkodd : k % 2 = 1) :
    s.isPrime k = s.Bits k := by
  unfold prime_sieve.isPrime
  rw [if_pos (by rw [Nat.and_one_is_mod]; exact hkodd)]

/-! The ten claims. -/

/-- C1: for every `N ≥ 3` and every odd `k` in `[3, N)`, after `runSieve` on a
fresh instance of size `N`, `isPrime k` is true when `k` has no divisor in
`[3, √k]` (i.e. `k` is prime), and false when `k` is an odd composite. -/
theorem claim_C1 (N k : Nat) (hN : 3 ≤ N) (hk3 : 3 ≤ k) (hkN : k < N)
    (hkodd : k % 2 = 1) :
    ((¬ ∃ d, 3 ≤ d ∧ d ≤ Nat.sqrt k ∧ d ∣ k) →
      ((prime_sieve.init N).runSieve).isPrime k = true) ∧
    (¬ Nat.Prime k → ((prime_sieve.init N).runSieve).isPrime k = false) := by
  rw [isPrime_odd_eq_Bits _ k hkodd]
  constructor
  · intro hnd
    have hp : Nat.Prime k := (no_small_divisor_iff_prime k hk3 hkodd).mp hnd
    rw [← Bool.not_eq_false, runSieve_init_char N k]
    rintro ⟨-, -, -, hnp⟩
    exact hnp hp
  · intro hnp
    rw [runSieve_init_char N k]
    exact ⟨hkN, hkodd, by omega, hnp⟩

theorem claim_C1_witness :
    ((prime_sieve.init 20).runSieve).isPrime 13 = true ∧
    ((prime_sieve.init 20).runSieve).isPrime 15 = false := by
  constructor
  · refine (claim_C1 20 13 (by omega) (by omega) (by omega) (by omega)).1 ?_
    rintro ⟨d, hd3, hdsq, hdvd⟩
    have hdd := Nat.le_sqrt.mp hdsq
    have hd4 : d ≤ 3 := by
      by_contra hd4
      have h16 : 4 * 4 ≤ d * d := Nat.mul_le_mul (by omega) (by omega)
      omega
    have hd : d = 3 := by omega
    subst hd
    obtain ⟨c, hc⟩ := hdvd
    omega
  · exact (claim_C1 20 15 (by omega) (by omega) (by omega) (by omega)).2 (by decide)

/-- C2: for every `N ≥ 1`, after `runSieve`, `countPrimes` returns 1 if
`N ≥ 2` (crediting the value 2, and 0 otherwise) plus the number of odd
indices `≥ 3` whose flag is still true; in particular at each tested limit it
equals the historically known prime count. -/
theorem claim_C2 :
    (∀ N, 1 ≤ N → ((prime_sieve.init N).runSieve).countPrimes =
      (if 2 ≤ N then 1 else 0) + oddTrueCount ((prime_sieve.init N).runSieve)) ∧
    ((prime_sieve.init 10).runSieve).countPrimes = 4 ∧
    ((prime_sieve.init 100).runSieve).countPrimes = 25 ∧
    ((prime_sieve.init 1000).runSieve).countPrimes = 168 ∧
    ((prime_sieve.init 10000).runSieve).countPrimes = 1229 ∧
    ((prime_sieve.init 100000).runSieve).countPrimes = 9592 ∧
    ((prime_sieve.init 1000000).runSieve).countPrimes = 78498 ∧
    ((prime_sieve.init 10000000).runSieve).countPrimes = 664579 := by
  refine ⟨fun N hN => ?_, countPrimes_val_10, countPrimes_val_100, countPrimes_val_1000,
    countPrimes_val_10000, countPrimes_val_100000, countPrimes_val_1000000,
    countPrimes_val_10000000⟩
  rw [countPrimes_eq, runSieve_size, init_size]

theorem claim_C2_witness :
    ((prime_sieve.init 10).runSieve).countPrimes =
      (if 2 ≤ 10 then 1 else 0) + oddTrueCount ((prime_sieve.init 10).runSieve) :=
  claim_C2.1 10 (by omega)

/-- C3 as stated is false: after `runSieve` the flag at an even composite
index (here 4, with `N = 10`) is still true although 4 is not prime. -/
theorem claim_C3_counterexample :
    ((prime_sieve.init 10).runSieve).Bits 4 = true ∧ ¬ Nat.Prime 4 := by
  constructor
  · decide
  · decide

/-- C3 (amended): after `runSieve` on a fresh instance of size `N ≥ 1`, for
`i < N` the flag at `i` is true iff `i` is prime or `i` is not an odd number
above 1 (the flags at 0, 1 and at even indices are simply never cleared; only
odd indices from 3 up faithfully indicate primality). -/
theorem claim_C3_amended (N : Nat) (hN : 1 ≤ N) (i : Nat) (hi : i < N) :
    (((prime_sieve.init N).runSieve).Bits i = true) ↔
      (Nat.Prime i ∨ ¬(i % 2 = 1 ∧ 1 < i)) := by
  rw [← Bool.not_eq_false, runSieve_init_char N i]
  constructor
  · intro h
    by_cases hp : Nat.Prime i
    · exact Or.inl hp
    · refine Or.inr fun ⟨hodd, h1⟩ => h ⟨hi, hodd, h1, hp⟩
  · rintro (hp | hno) ⟨-, hodd, h1, hnp⟩
    · exact hnp hp
    · exact hno ⟨hodd, h1⟩

theorem claim_C3_amended_witness :
    (((prime_sieve.init 10).runSieve).Bits 7 = true) ↔
      (Nat.Prime 7 ∨ ¬(7 % 2 = 1 ∧ 1 < 7)) :=
  claim_C3_amended 10 (by omega) 7 (by omega)

/-- C4 as stated is false: `validateResults` returns a plain `Bool`, and on a
limit absent from the table (12345) it returns `false` — the very same
outcome as a genuine count mismatch (size 10 before sweeping, where
`countPrimes` is 5 against the table's 4) — so there is no third
"no reference data" outcome distinct from the fail outcome. -/
theorem claim_C4_counterexample :
    (prime_sieve.init 12345).validateResults = false ∧
    (prime_sieve.init 10).validateResults = false ∧
    (prime_sieve.init 10).countPrimes = 5 := by
  refine ⟨by decide, by decide, by decide⟩

/-- C4 (amended): `validateResults` has only the two `Bool` outcomes: when the
instance's size is not a key of the table it returns `false` (identical to
the fail outcome), and when it is a key it returns whether `countPrimes`
matches the entry exactly. -/
theorem claim_C4_amended (s : prime_sieve) :
    (resultsDictionary.lookup s.size = none → s.validateResults = false) ∧
    (∀ v, resultsDictionary.lookup s.size = some v →
      (s.validateResults = true ↔ s.countPrimes = v)) := by
  unfold prime_sieve.validateResults
  constructor
  · intro h
    rw [h]
  · intro v h
    rw [h]
    simp only [beq_iff_eq]
    exact eq_comm

theorem claim_C4_amended_witness : (prime_sieve.init 12345).validateResults = false :=
  (claim_C4_amended (prime_sieve.init 12345)).1 (by decide)

/-- C5: the sieve only ever clears flags at odd indices `≥ 3`: at any index
that is `≤ 2` or even, every state of the outer loop keeps the flag value it
was given, and after `runSieve` on a fresh instance the flag is still true. -/
theorem claim_C5 (N : Nat) (hN : 1 ≤ N) (i : Nat) (hiN : i < N)
    (hi : i ≤ 2 ∨ i % 2 = 0) :
    (∀ (s : prime_sieve) (fuel f q : Nat), 3 ≤ f → f % 2 = 1 →
      (sieveLoop fuel s f q).Bits i = s.Bits i) ∧
    ((prime_sieve.init N).runSieve).Bits i = true := by
  constructor
  · intro s fuel f q hf3 hodd
    exact sieveLoop_low i hi fuel s f q hf3 hodd
  · have hunfold : (prime_sieve.init N).runSieve =
        sieveLoop (prime_sieve.init N).size (prime_sieve.init N) 3
          (isqrt (prime_sieve.init N).size) := rfl
    rw [hunfold, sieveLoop_low i hi _ _ 3 _ (by omega) rfl]
    rfl

theorem claim_C5_witness : ((prime_sieve.init 10).runSieve).Bits 8 = true :=
  (claim_C5 10 (by omega) 8 (by omega) (by omega)).2

/-- C6: running `runSieve` a second time on an already swept instance changes
neither `countPrimes` nor any flag. -/
theorem claim_C6 (N : Nat) (hN : 1 ≤ N) :
    (((prime_sieve.init N).runSieve).runSieve).countPrimes =
      ((prime_sieve.init N).runSieve).countPrimes ∧
    ∀ i, (((prime_sieve.init N).runSieve).runSieve).Bits i =
      ((prime_sieve.init N).runSieve).Bits i :=
  ⟨runSieve_twice_countPrimes N, runSieve_twice_Bits N⟩

theorem claim_C6_witness :
    (((prime_sieve.init 10).runSieve).runSieve).countPrimes =
      ((prime_sieve.init 10).runSieve).countPrimes :=
  (claim_C6 10 (by omega)).1

/-- C7: for even `k` with `2 < k < size`, `isPrime` returns false in the given
state, and indeed in every state whatsoever — the flag array is never
consulted on the even branch. -/
theorem claim_C7 (s : prime_sieve) (k : Nat) (h2 : 2 < k) (heven : k % 2 = 0)
    (hk : k < s.size) :
    s.isPrime k = false ∧ ∀ t : prime_sieve, t.isPrime k = false := by
  have hand : ¬ (k &&& 1 = 1) := by
    rw [Nat.and_one_is_mod]
    omega
  constructor
  · unfold prime_sieve.isPrime
    rw [if_neg hand]
  · intro t
    unfold prime_sieve.isPrime
    rw [if_neg hand]

theorem claim_C7_witness : (prime_sieve.init 10).isPrime 4 = false :=
  (claim_C7 (prime_sieve.init 10) 4 (by omega) (by omega) (by decide)).1

/-- C8: when one-shot mode is requested, the harness skips the timed
repeat-loop entirely (no loop sieve runs), performs exactly one sieve run
(the final check sieve), and credits exactly one pass — whatever thread-count
argument accompanies it, whatever the hardware parallelism, and however many
waves the wall clock would have admitted. -/
theorem claim_C8 (tc : String) (hw waves : Nat) :
    mainModel ["-t", tc, "-1", "-p"] hw waves =
      MainOutcome.ran 1 1 1 10000000 := rfl

/-- C9: evaluation at the failing input: `-t 5 -1 -p` requests one-shot mode
together with an explicit thread count of 5, yet the harness does not refuse —
`min(1, atoi("5"))` clamps the request to 1 thread, the conflict check passes,
and a sieve run is performed with the pass credited. -/
theorem claim_C9 :
    mainModel ["-t", "5", "-1", "-p"] 4 0 = MainOutcome.ran 1 1 1 10000000 ∧
    mainModel ["-t", "5", "-1", "-p"] 4 0 ≠ MainOutcome.refused := by
  refine ⟨rfl, by decide⟩

/-- C10: for every `N ≥ 3`, `isPrime 2` returns false both before and after
`runSieve` (the even branch never consults the flags), even though
`countPrimes` credits the value 2 with the leading 1 whenever `N ≥ 2`. -/
theorem claim_C10 (N : Nat) (hN : 3 ≤ N) :
    (prime_sieve.init N).isPrime 2 = false ∧
    ((prime_sieve.init N).runSieve).isPrime 2 = false ∧
    ((prime_sieve.init N).runSieve).countPrimes =
      1 + oddTrueCount ((prime_sieve.init N).runSieve) := by
  have hand : ¬ ((2:Nat) &&& 1 = 1) := by decide
  refine ⟨?_, ?_, ?_⟩
  · unfold prime_sieve.isPrime
    rw [if_neg hand]
  · unfold prime_sieve.isPrime
    rw [if_neg hand]
  · rw [countPrimes_eq, runSieve_size, init_size, if_pos (by omega : 2 ≤ N)]

theorem claim_C10_witness :
    (prime_sieve.init 10).isPrime 2 = false ∧
    ((prime_sieve.init 10).runSieve).isPrime 2 = false ∧
    ((prime_sieve.init 10).runSieve).countPrimes =
      1 + oddTrueCount ((prime_sieve.init 10).runSieve) :=
  claim_C10 10 (by omega)
